import Mathlib

/-!
# Grid algorithms and collision queries of `cppcore`

Shallow embedding of `floodFill`, `aStarPath` and `clearCompletedRows`
(GridAlgorithms.cpp) and of `aabbOverlap`, `pointInAABB`, `circleOverlap` and
`circleAABBOverlap` (CollisionDetection.cpp).

Conventions of the embedding:
* `int` / `int32_t` values are `Int`; every place where the C++ code narrows a
  size to `int`, or where an `int` computation can leave the 32 bit range, goes
  through `toInt32` (two's-complement wrap-around);
* `float` scores of `aStarPath` are read as exact integers (`Int`): binary32
  holds every integer up to `2^24 = 16777216` exactly, so this is the value the
  code computes as long as every score stays at or below `2^24`; above it the
  sums of the code round, and the embedding does not follow them. The `float`
  components of vectors and radii are read as exact rationals (`Rat`);
* a read of `grid[y][x]` outside the storage of the vectors has no defined
  result and is modelled by `none`, as is running out of fuel in a loop;
* `std::priority_queue::top` may return any entry of minimal `fScore`; the
  choice among equal entries is an explicit parameter `tie`.
-/

namespace cppcore

/-- Reinterpretation of an integer as a 32 bit two's-complement `int`. -/
def toInt32 (n : Int) : Int := (n + 2147483648) % 4294967296 - 2147483648

/-- Integer grid position (`struct GridPos`). -/
structure GridPos where
  x : Int
  y : Int
deriving DecidableEq

/-- A grid is a vector of rows (`std::vector<std::vector<int32_t>>`). -/
abbrev Grid := List (List Int)

/-- Read of `grid[y][x]`; `none` when the indices leave the storage. -/
def cellAt (grid : Grid) (x y : Int) : Option Int :=
  if x < 0 ∨ y < 0 then none
  else
    match grid[y.toNat]? with
    | none => none
    | some row => row[x.toNat]?

/-- Write `grid[y][x] = v`. -/
def setCell (grid : Grid) (x y : Nat) (v : Int) : Grid :=
  match grid[y]? with
  | none => grid
  | some row => grid.set y (row.set x v)

/-- The value of `grid[0].size()`. -/
def width (grid : Grid) : Nat := (grid.headD []).length

/-- The `while (!queue.empty())` loop of `floodFill`; the state is the grid,
the work queue and `count`. -/
def floodLoop (rows cols oldValue newValue : Int) :
    Nat → Grid → List GridPos → Int → Option (Int × Grid)
  | _, grid, [], count => some (count, grid)
  | 0, _, _ :: _, _ => none
  | fuel + 1, grid, pos :: queue, count =>
    if pos.x < 0 ∨ pos.x ≥ cols ∨ pos.y < 0 ∨ pos.y ≥ rows then
      floodLoop rows cols oldValue newValue fuel grid queue count
    else
      match cellAt grid pos.x pos.y with
      | none => none
      | some c =>
        if c ≠ oldValue then
          floodLoop rows cols oldValue newValue fuel grid queue count
        else
          floodLoop rows cols oldValue newValue fuel
            (setCell grid pos.x.toNat pos.y.toNat newValue)
            (queue ++ [⟨pos.x + 1, pos.y⟩, ⟨pos.x - 1, pos.y⟩,
                       ⟨pos.x, pos.y + 1⟩, ⟨pos.x, pos.y - 1⟩])
            (toInt32 (count + 1))

/-- The function `floodFill`: returns `count` and the grid after the call. -/
def floodFill (fuel : Nat) (grid : Grid) (startX startY newValue : Int) :
    Option (Int × Grid) :=
  if grid = [] ∨ width grid = 0 then some (0, grid)
  else
    let rows := toInt32 grid.length
    let cols := toInt32 (width grid)
    if startX < 0 ∨ startX ≥ cols ∨ startY < 0 ∨ startY ≥ rows then some (0, grid)
    else
      match cellAt grid startX startY with
      | none => none
      | some oldValue =>
        if oldValue = newValue then some (0, grid)
        else floodLoop rows cols oldValue newValue fuel grid [⟨startX, startY⟩] 0

/-- Number of cells stored in the grid. -/
def cellCount (grid : Grid) : Nat := (grid.map List.length).sum

/-- Fuel that always suffices for the work-queue loop of `floodFill`. -/
def floodFuel (grid : Grid) : Nat := 5 * cellCount grid + 2

/-- Every row has the width of the first row. -/
def Rect (grid : Grid) : Prop := ∀ row ∈ grid, row.length = width grid

instance (grid : Grid) : Decidable (Rect grid) :=
  inferInstanceAs (Decidable (∀ row ∈ grid, row.length = width grid))

/-- The number of rows and the width of the first row are representable as `int`. -/
def DimsFit32 (grid : Grid) : Prop :=
  grid.length < 2147483648 ∧ width grid < 2147483648

instance (grid : Grid) : Decidable (DimsFit32 grid) :=
  inferInstanceAs (Decidable (grid.length < 2147483648 ∧ width grid < 2147483648))

/-- The dimensions and the number of cells of the grid are representable as `int`. -/
def Fits32 (grid : Grid) : Prop :=
  DimsFit32 grid ∧ cellCount grid < 2147483648

instance (grid : Grid) : Decidable (Fits32 grid) :=
  inferInstanceAs (Decidable (DimsFit32 grid ∧ cellCount grid < 2147483648))

/-- The position is inside `[0, cols) × [0, rows)`. -/
def InBounds (grid : Grid) (p : GridPos) : Prop :=
  0 ≤ p.x ∧ p.x < width grid ∧ 0 ≤ p.y ∧ p.y < grid.length

instance (grid : Grid) (p : GridPos) : Decidable (InBounds grid p) :=
  inferInstanceAs (Decidable (0 ≤ p.x ∧ p.x < width grid ∧ 0 ≤ p.y ∧ p.y < grid.length))

/-- The position `q` is one step from `p` in one of the four axis directions. -/
def Adj (p q : GridPos) : Prop :=
  (q.x = p.x + 1 ∧ q.y = p.y) ∨ (q.x = p.x - 1 ∧ q.y = p.y) ∨
  (q.x = p.x ∧ q.y = p.y + 1) ∨ (q.x = p.x ∧ q.y = p.y - 1)

instance (p q : GridPos) : Decidable (Adj p q) :=
  inferInstanceAs (Decidable ((q.x = p.x + 1 ∧ q.y = p.y) ∨ (q.x = p.x - 1 ∧ q.y = p.y) ∨
    (q.x = p.x ∧ q.y = p.y + 1) ∨ (q.x = p.x ∧ q.y = p.y - 1)))

/-- The cell `q` is connected to `p` by a chain of 4-directionally adjacent
in-bounds cells that all hold `v` in `grid`. -/
inductive Connected (grid : Grid) (v : Int) (p : GridPos) : GridPos → Prop
  | start : InBounds grid p → cellAt grid p.x p.y = some v → Connected grid v p p
  | step {q r : GridPos} : Connected grid v p q → Adj q r → InBounds grid r →
      cellAt grid r.x r.y = some v → Connected grid v p r

/-- Number of positions at which two rows differ. -/
def rowDiff : List Int → List Int → Nat
  | a :: as, b :: bs => (if a = b then 0 else 1) + rowDiff as bs
  | _, _ => 0

/-- Number of cells whose value differs between two grids of the same shape. -/
def diffCount : Grid → Grid → Nat
  | r :: rs, s :: ss => rowDiff r s + diffCount rs ss
  | _, _ => 0

/-- Loop invariant of the work-queue loop of `floodFill`, relative to the grid
`G0` before the call, the old value `v`, the new value `nv` and the start `s`. -/
structure FloodInv (G0 : Grid) (v nv : Int) (s : GridPos) (grid : Grid)
    (queue : List GridPos) : Prop where
  shape : grid.map List.length = G0.map List.length
  cells : ∀ p, InBounds G0 p → cellAt grid p.x p.y = cellAt G0 p.x p.y ∨
    (cellAt G0 p.x p.y = some v ∧ cellAt grid p.x p.y = some nv ∧ Connected G0 v s p)
  qsound : ∀ q ∈ queue, InBounds G0 q → cellAt G0 q.x q.y = some v → Connected G0 v s q
  sdone : s ∈ queue ∨ cellAt grid s.x s.y = some nv
  closed : ∀ p q, InBounds G0 p → InBounds G0 q → Adj p q → cellAt G0 p.x p.y = some v →
    cellAt grid p.x p.y = some nv → cellAt G0 q.x q.y = some v →
    q ∈ queue ∨ cellAt grid q.x q.y = some nv

/-! ## `clearCompletedRows` -/

/-- The inner loop of `clearCompletedRows`: `full` stays `true` unless a cell is `0`. -/
def isFull : List Int → Bool
  | [] => true
  | cell :: rest => if cell = 0 then false else isFull rest

/-- The erase loop of `clearCompletedRows`: the rows that are kept and `cleared`. -/
def eraseLoop : Grid → Int → Grid × Int
  | [], cleared => ([], cleared)
  | row :: rest, cleared =>
    if isFull row then eraseLoop rest (toInt32 (cleared + 1))
    else (row :: (eraseLoop rest cleared).1, (eraseLoop rest cleared).2)

/-- The insertion loop of `clearCompletedRows`: `n` times `grid.insert(grid.begin(), ...)`. -/
def insertRows (cols : Nat) : Nat → Grid → Grid
  | 0, grid => grid
  | n + 1, grid => insertRows cols n (List.replicate cols 0 :: grid)

/-- The function `clearCompletedRows`: returns `cleared` and the grid after the call.
The loop `for (int i = 0; i < cleared; i++)` runs `cleared.toNat` times; the constructor
`std::vector<int32_t>(cols, 0)` has no result for a negative `cols`. -/
def clearCompletedRows (grid : Grid) : Option (Int × Grid) :=
  let kept := (eraseLoop grid 0).1
  let cleared := (eraseLoop grid 0).2
  let cols : Int := if kept = [] then 0 else toInt32 (width kept)
  if 0 < cleared ∧ cols < 0 then none
  else some (cleared, insertRows cols.toNat cleared.toNat kept)

/-! ## `aStarPath` -/

/-- The function `std::abs` on `int`. -/
def absInt (n : Int) : Int := if n < 0 then toInt32 (-n) else n

/-- The lambda `heuristic`: Manhattan distance, computed in `int`. The cast of the sum
to `float` is read as exact, which it is for sums up to `2^24`. -/
def heuristic (a b : GridPos) : Int :=
  toInt32 (absInt (toInt32 (a.x - b.x)) + absInt (toInt32 (a.y - b.y)))

/-- The lambda `key`: `p.y * cols + p.x`, computed in `int`. -/
def key (cols : Int) (p : GridPos) : Int := toInt32 (p.y * cols + p.x)

/-- An entry of the open set (`struct Node`). -/
structure Node where
  pos : GridPos
  fScore : Int
deriving DecidableEq

/-- Assignment `m[k] = v` on a `std::unordered_map<int, _>`. -/
def setKey {α : Type} (m : Int → Option α) (k : Int) (v : α) : Int → Option α :=
  fun j => if j = k then some v else m j

/-- The three containers of `aStarPath`. -/
structure AStarState where
  openSet : List Node
  cameFrom : Int → Option GridPos
  gScore : Int → Option Int

/-- No entry of the open set has a smaller `fScore` than `n`. -/
def isTop (l : List Node) (n : Node) : Bool := l.all (fun m => decide (n.fScore ≤ m.fScore))

/-- The calls `openSet.top()` and `openSet.pop()`: some entry of minimal `fScore`
is removed; `choice` selects among the minimal entries. -/
def popTop (choice : Nat) (l : List Node) : Option (Node × List Node) :=
  match (l.filter (isTop l))[choice % (l.filter (isTop l)).length]? with
  | none => none
  | some n => some (n, l.erase n)

/-- The array `dirs`. -/
def dirs : List GridPos := [⟨1, 0⟩, ⟨-1, 0⟩, ⟨0, 1⟩, ⟨0, -1⟩]

/-- One iteration of the `for (const auto& dir : dirs)` loop. The read
`gScore[key(current.pos)]` inserts the value `0` when the key is absent. The `float`
sums `gScore[...] + 1.0f` and `tentativeG + heuristic(...)` are read as exact integer
sums, which they are while the results stay at or below `2^24`. -/
def relax (grid : Grid) (rows cols : Int) (goal current : GridPos) (st : AStarState)
    (dir : GridPos) : Option AStarState :=
  let neighbor : GridPos := ⟨toInt32 (current.x + dir.x), toInt32 (current.y + dir.y)⟩
  if neighbor.x < 0 ∨ neighbor.x ≥ cols ∨ neighbor.y < 0 ∨ neighbor.y ≥ rows then some st
  else
    match cellAt grid neighbor.x neighbor.y with
    | none => none
    | some c =>
      if c ≠ 0 then some st
      else
        let gScore1 : Int → Option Int :=
          match st.gScore (key cols current) with
          | none => setKey st.gScore (key cols current) 0
          | some _ => st.gScore
        let tentativeG : Int := (gScore1 (key cols current)).getD 0 + 1
        let neighborKey := key cols neighbor
        let relaxed : AStarState :=
          { openSet := st.openSet ++ [⟨neighbor, tentativeG + heuristic neighbor goal⟩]
            cameFrom := setKey st.cameFrom neighborKey current
            gScore := setKey gScore1 neighborKey tentativeG }
        match gScore1 neighborKey with
        | none => some relaxed
        | some gN =>
          if tentativeG < gN then some relaxed
          else some { st with gScore := gScore1 }

/-- The whole `for (const auto& dir : dirs)` loop. -/
def relaxDirs (grid : Grid) (rows cols : Int) (goal current : GridPos) :
    List GridPos → AStarState → Option AStarState
  | [], st => some st
  | dir :: rest, st =>
    match relax grid rows cols goal current st dir with
    | none => none
    | some st1 => relaxDirs grid rows cols goal current rest st1

/-- The predecessor walk `while (!(step == start))`, followed by `path.push_back(start)`:
the vector `path` before it is reversed. A read `cameFrom[k]` of an absent key
gives `GridPos{0, 0}`. -/
def walkBack (cols : Int) (start : GridPos) (cameFrom : Int → Option GridPos) :
    Nat → GridPos → Option (List GridPos)
  | 0, step => if step = start then some [start] else none
  | fuel + 1, step =>
    if step = start then some [start]
    else (walkBack cols start cameFrom fuel ((cameFrom (key cols step)).getD ⟨0, 0⟩)).map
      (fun path => step :: path)

/-- The `while (!openSet.empty())` loop of `aStarPath`. The entry `tie 0` selects the
minimal entry popped now, the later entries of `tie` those popped later. -/
def aStarLoop (grid : Grid) (rows cols : Int) (start goal : GridPos) (walkFuel : Nat) :
    Nat → (Nat → Nat) → AStarState → Option (List GridPos)
  | 0, tie, st =>
    match popTop (tie 0) st.openSet with
    | none => some []
    | some (current, _) =>
      if current.pos = goal then
        (walkBack cols start st.cameFrom walkFuel goal).map List.reverse
      else none
  | fuel + 1, tie, st =>
    match popTop (tie 0) st.openSet with
    | none => some []
    | some (current, rest) =>
      if current.pos = goal then
        (walkBack cols start st.cameFrom walkFuel goal).map List.reverse
      else
        match relaxDirs grid rows cols goal current.pos dirs { st with openSet := rest } with
        | none => none
        | some st1 =>
          aStarLoop grid rows cols start goal walkFuel fuel (fun n => tie (n + 1)) st1

/-- The function `aStarPath`. -/
def aStarPath (fuel : Nat) (tie : Nat → Nat) (grid : Grid) (start goal : GridPos) :
    Option (List GridPos) :=
  if grid = [] ∨ width grid = 0 then some []
  else
    let rows := toInt32 grid.length
    let cols := toInt32 (width grid)
    aStarLoop grid rows cols start goal fuel fuel tie
      { openSet := [⟨start, heuristic start goal⟩]
        cameFrom := fun _ => none
        gScore := setKey (fun _ => none) (key cols start) 0 }

/-- Fuel that always suffices for the loops of `aStarPath`. -/
def aStarFuel (grid : Grid) : Nat := 2 * (cellCount grid * (cellCount grid + 2)) + 2

/-- The value is representable as `int`. -/
def IsInt32 (n : Int) : Prop := -2147483648 ≤ n ∧ n < 2147483648

instance (n : Int) : Decidable (IsInt32 n) :=
  inferInstanceAs (Decidable (-2147483648 ≤ n ∧ n < 2147483648))

/-- Both coordinates are representable as `int` (true of every `GridPos` value). -/
def PosInt32 (p : GridPos) : Prop := IsInt32 p.x ∧ IsInt32 p.y

instance (p : GridPos) : Decidable (PosInt32 p) :=
  inferInstanceAs (Decidable (IsInt32 p.x ∧ IsInt32 p.y))

/-- An in-bounds cell whose value is exactly `0`. -/
def Free (grid : Grid) (p : GridPos) : Prop :=
  InBounds grid p ∧ cellAt grid p.x p.y = some 0

instance (grid : Grid) (p : GridPos) : Decidable (Free grid p) :=
  inferInstanceAs (Decidable (InBounds grid p ∧ cellAt grid p.x p.y = some 0))

/-- The position reached from `p` by the step `d`, without wrap-around. -/
def stepBy (p d : GridPos) : GridPos := ⟨p.x + d.x, p.y + d.y⟩

/-- Manhattan distance between two positions. -/
def manhattan (a b : GridPos) : Int := |a.x - b.x| + |a.y - b.y|

/-- The relaxed state of `relax`: the neighbour `nb` is entered with cost `g`. -/
def relaxedState (cols : Int) (goal current nb : GridPos) (g : Int) (st : AStarState) :
    AStarState :=
  { openSet := st.openSet ++ [⟨nb, g + heuristic nb goal⟩]
    cameFrom := setKey st.cameFrom (key cols nb) current
    gScore := setKey st.gScore (key cols nb) g }

/-- The position is the start, or a free cell that has a predecessor entry. -/
def Reached (grid : Grid) (start : GridPos) (st : AStarState) (p : GridPos) : Prop :=
  p = start ∨ (Free grid p ∧ ∃ q, st.cameFrom (key (width grid) p) = some q)

/-- Invariant of the frontier loop of `aStarPath` that holds for every start. -/
structure AStarInv (grid : Grid) (start : GridPos) (st : AStarState) : Prop where
  gstart : st.gScore (key (width grid) start) = some 0
  gnonneg : ∀ k g, st.gScore k = some g → 0 ≤ g
  opn : ∀ n ∈ st.openSet, Reached grid start st n.pos
  link : ∀ p q, Free grid p → st.cameFrom (key (width grid) p) = some q →
    Adj q p ∧ Reached grid start st q ∧ key (width grid) p ≠ key (width grid) start ∧
    ∃ gp gq, st.gScore (key (width grid) p) = some gp ∧
      st.gScore (key (width grid) q) = some gq ∧ gq + 1 ≤ gp

/-- The list leads from `start` to `goal` by single steps in the four axis directions, and
every element after the first is an in-bounds cell whose value is `0`. -/
def ValidPath (grid : Grid) (start goal : GridPos) (path : List GridPos) : Prop :=
  path.head? = some start ∧ path.getLast? = some goal ∧ List.Chain' Adj path ∧
  ∀ p ∈ path.tail, Free grid p

/-- Number of keys below `n` that have an entry in the cost table. -/
def gDefined (n : Nat) (st : AStarState) : Nat :=
  ((Finset.range n).filter (fun k : Nat => (st.gScore (k : Int)).isSome = true)).card

/-- Weight of one entry of the cost table: an absent entry weighs more than any cost. -/
def gVal (n : Nat) : Option Int → Nat
  | none => n + 2
  | some g => g.toNat

/-- Sum of the weights of the keys below `n`. -/
def gPotential (n : Nat) (st : AStarState) : Nat :=
  Finset.sum (Finset.range n) (fun k : Nat => gVal n (st.gScore (k : Int)))

/-- Termination measure of the frontier loop of `aStarPath`. -/
def loopMeasure (n : Nat) (st : AStarState) : Nat :=
  2 * gPotential n st + st.openSet.length

/-- Every cost in the table is bounded by the number of entries with a key below `n`. -/
def TermInv (n : Nat) (st : AStarState) : Prop :=
  ∀ k g, st.gScore k = some g → g ≤ gDefined n st

/-- Invariant of the frontier loop of `aStarPath` behind the optimality of the result, for
an in-bounds start and goal. The cells in `skip` (the cell being expanded) are exempt from
the third clause. -/
structure AStarOpt (grid : Grid) (start goal : GridPos) (skip : GridPos → Prop)
    (st : AStarState) : Prop where
  fbound : ∀ n ∈ st.openSet, ∃ g, st.gScore (key (width grid) n.pos) = some g ∧
    g + manhattan n.pos goal ≤ n.fScore
  goalOpen : ∀ g, st.gScore (key (width grid) goal) = some g → ∃ n ∈ st.openSet, n.pos = goal
  closed : ∀ v g, ¬ skip v → (v = start ∨ Free grid v) →
    st.gScore (key (width grid) v) = some g →
    (⟨v, g + manhattan v goal⟩ : Node) ∈ st.openSet ∨
    ∀ w, Adj v w → Free grid w →
      ∃ gw, st.gScore (key (width grid) w) = some gw ∧ gw ≤ g + 1

/-! ## Collision detection (`PhysicsTypes.h`, `CollisionDetection.cpp`)

The `float` components are read as exact rationals. -/

/-- 2D vector (`struct Vec2`). -/
structure Vec2 where
  x : Rat
  y : Rat
deriving DecidableEq

/-- The operator `Vec2::operator-`. -/
def Vec2.sub (a b : Vec2) : Vec2 := ⟨a.x - b.x, a.y - b.y⟩

/-- The method `Vec2::lengthSquared`. -/
def Vec2.lengthSquared (v : Vec2) : Rat := v.x * v.x + v.y * v.y

/-- Axis-aligned bounding box (`struct AABB`). -/
structure AABB where
  min : Vec2
  max : Vec2
deriving DecidableEq

/-- The method `AABB::center`. -/
def AABB.center (b : AABB) : Vec2 :=
  ⟨(b.min.x + b.max.x) * 0.5, (b.min.y + b.max.y) * 0.5⟩

/-- The function `aabbOverlap`. -/
def aabbOverlap (a b : AABB) : Bool :=
  decide (a.min.x ≤ b.max.x ∧ a.max.x ≥ b.min.x ∧ a.min.y ≤ b.max.y ∧ a.max.y ≥ b.min.y)

/-- The function `pointInAABB`. -/
def pointInAABB (point : Vec2) (box : AABB) : Bool :=
  decide (point.x ≥ box.min.x ∧ point.x ≤ box.max.x ∧
    point.y ≥ box.min.y ∧ point.y ≤ box.max.y)

/-- The function `circleOverlap`. -/
def circleOverlap (centerA : Vec2) (radiusA : Rat) (centerB : Vec2) (radiusB : Rat) : Bool :=
  let diff := centerA.sub centerB
  let distSq := diff.lengthSquared
  let radiusSum := radiusA + radiusB
  decide (distSq ≤ radiusSum * radiusSum)

/-- The function `std::clamp(v, lo, hi)`. -/
def clamp (v lo hi : Rat) : Rat := if v < lo then lo else if hi < v then hi else v

/-- The function `circleAABBOverlap`. -/
def circleAABBOverlap (center : Vec2) (radius : Rat) (box : AABB) : Bool :=
  let closestX := clamp center.x box.min.x box.max.x
  let closestY := clamp center.y box.min.y box.max.y
  let closest : Vec2 := ⟨closestX, closestY⟩
  let diff := center.sub closest
  decide (diff.lengthSquared ≤ radius * radius)

/-- The box satisfies `min ≤ max` on both axes. -/
def WellFormed (box : AABB) : Prop := box.min.x ≤ box.max.x ∧ box.min.y ≤ box.max.y

instance (box : AABB) : Decidable (WellFormed box) :=
  inferInstanceAs (Decidable (box.min.x ≤ box.max.x ∧ box.min.y ≤ box.max.y))

/-! ## Reading and writing cells -/

theorem toInt32_of_lt (n : Int) (h0 : -2147483648 ≤ n) (h : n < 2147483648) : toInt32 n = n := by
  unfold toInt32; omega

theorem cellAt_eq_some {grid : Grid} {x y : Int} {c : Int} (h : cellAt grid x y = some c) :
    0 ≤ x ∧ 0 ≤ y ∧ ∃ row, grid[y.toNat]? = some row ∧ row[x.toNat]? = some c := by
  unfold cellAt at h
  split at h
  · exact absurd h (by simp)
  · rename_i hneg
    push_neg at hneg
    refine ⟨hneg.1, hneg.2, ?_⟩
    split at h
    · exact absurd h (by simp)
    · rename_i row hrow
      exact ⟨row, hrow, h⟩

theorem cellAt_of_row {grid : Grid} {x y : Int} {row : List Int} (hx : 0 ≤ x) (hy : 0 ≤ y)
    (hrow : grid[y.toNat]? = some row) : cellAt grid x y = row[x.toNat]? := by
  unfold cellAt
  rw [if_neg (by omega)]
  simp [hrow]

theorem setCell_map_length (grid : Grid) (x y : Nat) (v : Int) :
    (setCell grid x y v).map List.length = grid.map List.length := by
  unfold setCell
  split
  · rfl
  · rename_i row hrow
    apply List.ext_getElem?
    intro i
    simp only [List.getElem?_map, List.getElem?_set]
    by_cases hi : y = i
    · subst hi
      have hlt : y < grid.length := by
        rcases List.getElem?_eq_some_iff.1 hrow with ⟨h, _⟩
        exact h
      simp [hlt, hrow]
    · simp [hi]

theorem cellAt_setCell_same {grid : Grid} {x y : Int} {c : Int} (v : Int)
    (h : cellAt grid x y = some c) : cellAt (setCell grid x.toNat y.toNat v) x y = some v := by
  obtain ⟨hx, hy, row, hrow, hc⟩ := cellAt_eq_some h
  have hlt : y.toNat < grid.length := (List.getElem?_eq_some_iff.1 hrow).1
  have hxlt : x.toNat < row.length := (List.getElem?_eq_some_iff.1 hc).1
  have hrow2 : (setCell grid x.toNat y.toNat v)[y.toNat]? = some (row.set x.toNat v) := by
    unfold setCell
    simp [hrow, hlt]
  rw [cellAt_of_row hx hy hrow2]
  simp [hxlt]

theorem cellAt_setCell_other {grid : Grid} {x y x2 y2 : Int} (v : Int) (hx : 0 ≤ x) (hy : 0 ≤ y)
    (hne : ¬ (x2 = x ∧ y2 = y)) :
    cellAt (setCell grid x.toNat y.toNat v) x2 y2 = cellAt grid x2 y2 := by
  unfold cellAt
  by_cases hneg : x2 < 0 ∨ y2 < 0
  · simp [hneg]
  · rw [if_neg hneg, if_neg hneg]
    push_neg at hneg
    unfold setCell
    cases hrow : grid[y.toNat]? with
    | none => simp
    | some row =>
      simp only [List.getElem?_set]
      by_cases hy2 : y.toNat = y2.toNat
      · have hyy : y2 = y := by omega
        have hxx : x.toNat ≠ x2.toNat := by
          intro hcon
          apply hne
          constructor <;> omega
        have hlt : y.toNat < grid.length := (List.getElem?_eq_some_iff.1 hrow).1
        rw [if_pos hy2]
        simp only [hlt, if_true]
        rw [← hy2, hrow]
        simp [List.getElem?_set, hxx]
      · rw [if_neg hy2]

/-! ## Shape of a rectangular grid -/

theorem width_of_map_length {g h : Grid} (hs : g.map List.length = h.map List.length) :
    width g = width h := by
  unfold width
  cases g with
  | nil =>
    cases h with
    | nil => rfl
    | cons b bs => simp at hs
  | cons a as =>
    cases h with
    | nil => simp at hs
    | cons b bs =>
      simp only [List.map_cons, List.cons.injEq] at hs
      simpa using hs.1

theorem length_of_map_length {g h : Grid} (hs : g.map List.length = h.map List.length) :
    g.length = h.length := by
  have := congrArg List.length hs
  simpa using this

theorem cellAt_isSome_of_inBounds {grid : Grid} (hrect : Rect grid) {p : GridPos}
    (hp : InBounds grid p) : ∃ c, cellAt grid p.x p.y = some c := by
  obtain ⟨hx0, hx1, hy0, hy1⟩ := hp
  have hy : p.y.toNat < grid.length := by omega
  have hrow : grid[p.y.toNat]? = some (grid[p.y.toNat]) := List.getElem?_eq_getElem hy
  have hlen : (grid[p.y.toNat]).length = width grid := hrect _ (List.getElem_mem _)
  have hx : p.x.toNat < (grid[p.y.toNat]).length := by omega
  refine ⟨(grid[p.y.toNat])[p.x.toNat], ?_⟩
  rw [cellAt_of_row hx0 hy0 hrow]
  exact List.getElem?_eq_getElem hx

theorem cellAt_shape {g h : Grid} (hs : g.map List.length = h.map List.length) {x y : Int} {c : Int}
    (hc : cellAt h x y = some c) : ∃ d, cellAt g x y = some d := by
  obtain ⟨hx, hy, row, hrow, hcx⟩ := cellAt_eq_some hc
  have hlt : y.toNat < h.length := (List.getElem?_eq_some_iff.1 hrow).1
  have hlt2 : y.toNat < g.length := by rw [length_of_map_length hs]; exact hlt
  have hrow2 : g[y.toNat]? = some (g[y.toNat]) := List.getElem?_eq_getElem hlt2
  have hl : (g[y.toNat]).length = row.length := by
    have h1 : (g.map List.length)[y.toNat]? = (h.map List.length)[y.toNat]? := by rw [hs]
    simp only [List.getElem?_map, hrow2, hrow, Option.map_some'] at h1
    exact Option.some.inj h1
  have hxlt : x.toNat < row.length := (List.getElem?_eq_some_iff.1 hcx).1
  have hxlt2 : x.toNat < (g[y.toNat]).length := by omega
  refine ⟨(g[y.toNat])[x.toNat], ?_⟩
  rw [cellAt_of_row hx hy hrow2]
  exact List.getElem?_eq_getElem hxlt2

/-! ## Counting the cells that differ -/

theorem rowDiff_self (r : List Int) : rowDiff r r = 0 := by
  induction r with
  | nil => rfl
  | cons a as ih => simp [rowDiff, ih]

theorem diffCount_self (g : Grid) : diffCount g g = 0 := by
  induction g with
  | nil => rfl
  | cons r rs ih => simp [diffCount, ih, rowDiff_self]

theorem rowDiff_le (r s : List Int) : rowDiff r s ≤ r.length := by
  induction r generalizing s with
  | nil => simp [rowDiff]
  | cons a as ih =>
    cases s with
    | nil => simp [rowDiff]
    | cons b bs =>
      simp only [rowDiff, List.length_cons]
      have := ih bs
      split <;> omega

theorem diffCount_le (g h : Grid) : diffCount g h ≤ cellCount g := by
  induction g generalizing h with
  | nil => simp [diffCount]
  | cons r rs ih =>
    cases h with
    | nil => simp [diffCount]
    | cons s ss =>
      simp only [diffCount, cellCount, List.map_cons, List.sum_cons]
      have h1 := ih ss
      have h2 := rowDiff_le r s
      unfold cellCount at h1
      omega

theorem rowDiff_set {r s : List Int} {x : Nat} {a b : Int} (hr : r[x]? = some a)
    (hs : s[x]? = some a) (hb : b ≠ a) : rowDiff r (s.set x b) = rowDiff r s + 1 := by
  induction r generalizing s x with
  | nil => simp at hr
  | cons c cs ih =>
    cases s with
    | nil => simp at hs
    | cons d ds =>
      cases x with
      | zero =>
        simp only [List.getElem?_cons_zero, Option.some.injEq] at hr hs
        have hab : ¬ (a = b) := fun h => hb h.symm
        simp only [List.set_cons_zero, rowDiff, hr, hs, hab, if_true, if_false]
        omega
      | succ n =>
        simp only [List.getElem?_cons_succ] at hr hs
        simp only [List.set_cons_succ, rowDiff, ih hr hs]
        omega

theorem diffCount_setCell {g0 g : Grid} {x y : Nat} {a b : Int} {r0 r1 : List Int}
    (h0 : g0[y]? = some r0) (h1 : g[y]? = some r1) (hr : r0[x]? = some a)
    (hs : r1[x]? = some a) (hb : b ≠ a) :
    diffCount g0 (setCell g x y b) = diffCount g0 g + 1 := by
  have hset : setCell g x y b = g.set y (r1.set x b) := by
    unfold setCell; simp [h1]
  rw [hset]
  clear hset
  induction g0 generalizing g y with
  | nil => simp at h0
  | cons c cs ih =>
    cases g with
    | nil => simp at h1
    | cons d ds =>
      cases y with
      | zero =>
        simp only [List.getElem?_cons_zero, Option.some.injEq] at h0 h1
        subst h0; subst h1
        simp only [List.set_cons_zero, diffCount, rowDiff_set hr hs hb]
        omega
      | succ n =>
        simp only [List.getElem?_cons_succ] at h0 h1
        simp only [List.set_cons_succ, diffCount, ih h0 h1]
        omega

theorem FloodInv.atStart {G0 : Grid} {v nv : Int} {s : GridPos} (hs : InBounds G0 s)
    (hsv : cellAt G0 s.x s.y = some v) (hnv : nv ≠ v) : FloodInv G0 v nv s G0 [s] where
  shape := rfl
  cells := fun p _ => Or.inl rfl
  qsound := by
    intro q hq _ _
    rw [List.mem_singleton] at hq
    subst hq
    exact Connected.start hs hsv
  sdone := Or.inl (List.mem_singleton.2 rfl)
  closed := by
    intro p q _ _ _ hp0 hp1 _
    rw [hp0] at hp1
    exact absurd (Option.some.inj hp1) (Ne.symm hnv)

theorem FloodInv.skip {G0 : Grid} {v nv : Int} {s : GridPos} {grid : Grid} {pos : GridPos}
    {queue : List GridPos} (hs : InBounds G0 s) (hsv : cellAt G0 s.x s.y = some v)
    (inv : FloodInv G0 v nv s grid (pos :: queue))
    (hpos : InBounds G0 pos → cellAt G0 pos.x pos.y = some v → cellAt grid pos.x pos.y ≠ some v) :
    FloodInv G0 v nv s grid queue where
  shape := inv.shape
  cells := inv.cells
  qsound := fun q hq => inv.qsound q (List.mem_cons_of_mem _ hq)
  sdone := by
    rcases inv.sdone with h | h
    · rcases List.mem_cons.1 h with h | h
      · subst h
        right
        rcases inv.cells s hs with hc | hc
        · exact absurd (hc.trans hsv) (hpos hs hsv)
        · exact hc.2.1
      · exact Or.inl h
    · exact Or.inr h
  closed := by
    intro p q hp hq hadj hp0 hp1 hq0
    rcases inv.closed p q hp hq hadj hp0 hp1 hq0 with h | h
    · rcases List.mem_cons.1 h with h | h
      · subst h
        right
        rcases inv.cells q hq with hc | hc
        · exact absurd (hc.trans hq0) (hpos hq hq0)
        · exact hc.2.1
      · exact Or.inl h
    · exact Or.inr h

theorem FloodInv.fill {G0 : Grid} {v nv : Int} {s : GridPos} {grid : Grid} {pos : GridPos}
    {queue : List GridPos}
    (inv : FloodInv G0 v nv s grid (pos :: queue)) (hpos : InBounds G0 pos)
    (hc : cellAt grid pos.x pos.y = some v) :
    FloodInv G0 v nv s (setCell grid pos.x.toNat pos.y.toNat nv)
      (queue ++ [⟨pos.x + 1, pos.y⟩, ⟨pos.x - 1, pos.y⟩, ⟨pos.x, pos.y + 1⟩,
        ⟨pos.x, pos.y - 1⟩]) := by
  have hx0 : 0 ≤ pos.x := hpos.1
  have hy0 : 0 ≤ pos.y := hpos.2.2.1
  have hG0 : cellAt G0 pos.x pos.y = some v := by
    rcases inv.cells pos hpos with h | h
    · rw [← h]; exact hc
    · exact h.1
  have hconn : Connected G0 v s pos := inv.qsound pos (List.mem_cons_self _ _) hpos hG0
  have hkeep : ∀ q : GridPos, cellAt grid q.x q.y = some nv →
      cellAt (setCell grid pos.x.toNat pos.y.toNat nv) q.x q.y = some nv := by
    intro q hq
    by_cases hqp : q.x = pos.x ∧ q.y = pos.y
    · rw [hqp.1, hqp.2]
      exact cellAt_setCell_same nv hc
    · rw [cellAt_setCell_other nv hx0 hy0 hqp]
      exact hq
  refine ⟨?_, ?_, ?_, ?_, ?_⟩
  · rw [setCell_map_length]
    exact inv.shape
  · intro p hp
    by_cases hpp : p.x = pos.x ∧ p.y = pos.y
    · have hpe : p = pos := by
        cases p; cases pos; simp only [GridPos.mk.injEq]; exact hpp
      subst hpe
      exact Or.inr ⟨hG0, cellAt_setCell_same nv hc, hconn⟩
    · rw [cellAt_setCell_other nv hx0 hy0 hpp]
      exact inv.cells p hp
  · intro q hq hqb hqv
    rcases List.mem_append.1 hq with h | h
    · exact inv.qsound q (List.mem_cons_of_mem _ h) hqb hqv
    · refine Connected.step hconn ?_ hqb hqv
      simp only [List.mem_cons, List.mem_singleton, List.not_mem_nil, or_false] at h
      rcases h with h | h | h | h <;> subst h <;> simp [Adj]
  · rcases inv.sdone with h | h
    · rcases List.mem_cons.1 h with h | h
      · right
        rw [h]
        exact cellAt_setCell_same nv hc
      · exact Or.inl (List.mem_append_left _ h)
    · exact Or.inr (hkeep s h)
  · intro p q hp hq hadj hp0 hp1 hq0
    by_cases hpp : p.x = pos.x ∧ p.y = pos.y
    · left
      apply List.mem_append_right
      have hpe : p = pos := by
        cases p; cases pos; simp only [GridPos.mk.injEq]; exact hpp
      subst hpe
      simp only [List.mem_cons, List.mem_singleton, List.not_mem_nil, or_false]
      rcases hadj with h | h | h | h
      · left; cases q; simp only [GridPos.mk.injEq]; exact h
      · right; left; cases q; simp only [GridPos.mk.injEq]; exact h
      · right; right; left; cases q; simp only [GridPos.mk.injEq]; exact h
      · right; right; right; cases q; simp only [GridPos.mk.injEq]; exact h
    · rw [cellAt_setCell_other nv hx0 hy0 hpp] at hp1
      rcases inv.closed p q hp hq hadj hp0 hp1 hq0 with h | h
      · rcases List.mem_cons.1 h with h | h
        · right
          rw [h]
          exact cellAt_setCell_same nv hc
        · exact Or.inl (List.mem_append_left _ h)
      · exact Or.inr (hkeep q h)

theorem FloodInv.diffCount_fill {G0 : Grid} {v nv : Int} {s : GridPos} {grid : Grid}
    {pos : GridPos} {queue : List GridPos} (hnv : nv ≠ v)
    (inv : FloodInv G0 v nv s grid (pos :: queue)) (hpos : InBounds G0 pos)
    (hc : cellAt grid pos.x pos.y = some v) :
    diffCount G0 (setCell grid pos.x.toNat pos.y.toNat nv) = diffCount G0 grid + 1 := by
  have hG0 : cellAt G0 pos.x pos.y = some v := by
    rcases inv.cells pos hpos with h | h
    · rw [← h]; exact hc
    · exact h.1
  obtain ⟨_, _, r0, hr0, hv0⟩ := cellAt_eq_some hG0
  obtain ⟨_, _, r1, hr1, hv1⟩ := cellAt_eq_some hc
  exact diffCount_setCell hr0 hr1 hv0 hv1 hnv

/-- The final state of the loop: exactly the cells connected to the start hold
the new value, the others are unchanged. -/
theorem FloodInv.final {G0 : Grid} {v nv : Int} {s : GridPos} {grid : Grid}
    (inv : FloodInv G0 v nv s grid []) (p : GridPos) (hp : InBounds G0 p) :
    (Connected G0 v s p → cellAt grid p.x p.y = some nv) ∧
    (¬ Connected G0 v s p → cellAt grid p.x p.y = cellAt G0 p.x p.y) := by
  constructor
  · intro hconn
    clear hp
    induction hconn with
    | start _ _ =>
      rcases inv.sdone with h | h
      · exact absurd h (List.not_mem_nil _)
      · exact h
    | step hq hadj hr hrv ih =>
      rename_i q r
      have hqb : InBounds G0 q := by
        cases hq with
        | start h _ => exact h
        | step _ _ h _ => exact h
      have hqv : cellAt G0 q.x q.y = some v := by
        cases hq with
        | start _ h => exact h
        | step _ _ _ h => exact h
      rcases inv.closed q r hqb hr hadj hqv ih hrv with h | h
      · exact absurd h (List.not_mem_nil _)
      · exact h
  · intro hn
    rcases inv.cells p hp with h | h
    · exact h
    · exact absurd h.2.2 hn

theorem floodLoop_spec {G0 : Grid} {v nv : Int} {s : GridPos} (hrect : Rect G0)
    (hfit : Fits32 G0) (hs : InBounds G0 s) (hsv : cellAt G0 s.x s.y = some v) (hnv : nv ≠ v) :
    ∀ (fuel : Nat) (grid : Grid) (queue : List GridPos), FloodInv G0 v nv s grid queue →
      5 * (cellCount G0 - diffCount G0 grid) + queue.length < fuel →
      ∃ grid', floodLoop G0.length (width G0) v nv fuel grid queue (diffCount G0 grid)
          = some ((diffCount G0 grid' : Int), grid') ∧ FloodInv G0 v nv s grid' [] := by
  intro fuel
  induction fuel with
  | zero => intro grid queue _ h; omega
  | succ fuel ih =>
    intro grid queue inv hfuel
    cases queue with
    | nil => exact ⟨grid, by simp [floodLoop], inv⟩
    | cons pos queue =>
      simp only [List.length_cons] at hfuel
      by_cases hout : pos.x < 0 ∨ pos.x ≥ (width G0 : Int) ∨ pos.y < 0 ∨ pos.y ≥ (G0.length : Int)
      · have inv2 : FloodInv G0 v nv s grid queue := by
          refine inv.skip hs hsv ?_
          intro hb
          obtain ⟨h1, h2, h3, h4⟩ := hb
          omega
        obtain ⟨g2, hg2, hinv2⟩ := ih grid queue inv2 (by omega)
        refine ⟨g2, ?_, hinv2⟩
        rw [floodLoop, if_pos hout]
        exact hg2
      · have hpos : InBounds G0 pos := by
          unfold InBounds
          omega
        obtain ⟨c0, hc0⟩ := cellAt_isSome_of_inBounds hrect hpos
        obtain ⟨c, hc⟩ := cellAt_shape inv.shape hc0
        by_cases hcv : c = v
        · subst hcv
          have hd := inv.diffCount_fill hnv hpos hc
          have hle := diffCount_le G0 (setCell grid pos.x.toNat pos.y.toNat nv)
          obtain ⟨g2, hg2, hinv2⟩ := ih _ _ (inv.fill hpos hc) (by
            simp only [List.length_append, List.length_cons, List.length_nil]
            omega)
          refine ⟨g2, ?_, hinv2⟩
          rw [floodLoop, if_neg hout]
          simp only [hc, ne_eq, not_true_eq_false, if_false]
          have hcnt : toInt32 ((diffCount G0 grid : Int) + 1)
              = ((diffCount G0 (setCell grid pos.x.toNat pos.y.toNat nv) : Nat) : Int) := by
            rw [hd]
            have h3 := hfit.2
            rw [toInt32_of_lt] <;> push_cast <;> omega
          rw [hcnt]
          exact hg2
        · have inv2 : FloodInv G0 v nv s grid queue := by
            refine inv.skip hs hsv ?_
            intro _ _ hcon
            rw [hc] at hcon
            exact hcv (Option.some.inj hcon)
          obtain ⟨g2, hg2, hinv2⟩ := ih grid queue inv2 (by omega)
          refine ⟨g2, ?_, hinv2⟩
          rw [floodLoop, if_neg hout]
          simp only [hc, ne_eq, hcv, not_false_eq_true, if_true]
          exact hg2

theorem floodFill_of_fill {grid : Grid} {startX startY newValue v : Int} {fuel : Nat}
    (hrect : Rect grid) (hfit : Fits32 grid) (hin : InBounds grid ⟨startX, startY⟩)
    (hv : cellAt grid startX startY = some v) (hnv : newValue ≠ v)
    (hfuel : floodFuel grid ≤ fuel) :
    ∃ grid', floodFill fuel grid startX startY newValue = some ((diffCount grid grid' : Int), grid')
      ∧ FloodInv grid v newValue ⟨startX, startY⟩ grid' [] := by
  have hrows : toInt32 (grid.length : Int) = grid.length :=
    toInt32_of_lt _ (by omega) (by have := hfit.1.1; omega)
  have hcols : toInt32 (width grid : Int) = width grid :=
    toInt32_of_lt _ (by omega) (by have := hfit.1.2; omega)
  obtain ⟨hx0, hx1, hy0, hy1⟩ := hin
  simp only at hx0 hx1 hy0 hy1
  have hne : ¬ (grid = [] ∨ width grid = 0) := by
    rintro (h | h)
    · rw [h] at hy1; simp at hy1; omega
    · rw [h] at hx1; simp at hx1; omega
  have hinb : ¬ (startX < 0 ∨ startX ≥ (width grid : Int) ∨ startY < 0 ∨
      startY ≥ (grid.length : Int)) := by omega
  have hfuel2 : 5 * (cellCount grid - diffCount grid grid) + [(⟨startX, startY⟩ : GridPos)].length
      < fuel := by
    unfold floodFuel at hfuel
    simp only [List.length_singleton]
    omega
  obtain ⟨g2, hg2, hinv⟩ := @floodLoop_spec grid v newValue ⟨startX, startY⟩ hrect hfit
    ⟨hx0, hx1, hy0, hy1⟩ hv hnv fuel grid [⟨startX, startY⟩]
    (FloodInv.atStart ⟨hx0, hx1, hy0, hy1⟩ hv hnv) hfuel2
  refine ⟨g2, ?_, hinv⟩
  unfold floodFill
  rw [if_neg hne]
  simp only [hrows, hcols]
  rw [if_neg hinb]
  simp only [hv, Ne.symm hnv, if_false]
  rw [diffCount_self] at hg2
  exact hg2

/-- Claim C1. On a rectangular grid whose sizes fit in `int`, for an in-bounds start whose cell
holds `v` and a new value different from `v`, `floodFill` (with enough fuel for its work
queue) returns, the shape of the grid is unchanged, every in-bounds cell connected to the
start through 4-adjacent cells holding `v` held `v` and now holds the new value, and every
other in-bounds cell keeps its value. -/
theorem floodFill_fills_connected_region (grid : Grid) (startX startY newValue v : Int)
    (fuel : Nat) (hrect : Rect grid) (hfit : Fits32 grid)
    (hin : InBounds grid ⟨startX, startY⟩) (hv : cellAt grid startX startY = some v)
    (hnv : newValue ≠ v) (hfuel : floodFuel grid ≤ fuel) :
    ∃ count grid', floodFill fuel grid startX startY newValue = some (count, grid') ∧
      grid'.map List.length = grid.map List.length ∧
      ∀ p : GridPos, InBounds grid p →
        (Connected grid v ⟨startX, startY⟩ p →
          cellAt grid p.x p.y = some v ∧ cellAt grid' p.x p.y = some newValue) ∧
        (¬ Connected grid v ⟨startX, startY⟩ p → cellAt grid' p.x p.y = cellAt grid p.x p.y) := by
  obtain ⟨g2, hg2, hinv⟩ := floodFill_of_fill hrect hfit hin hv hnv hfuel
  refine ⟨_, g2, hg2, hinv.shape, ?_⟩
  intro p hp
  refine ⟨fun hc => ⟨?_, (hinv.final p hp).1 hc⟩, (hinv.final p hp).2⟩
  cases hc with
  | start _ h => exact h
  | step _ _ _ h => exact h

theorem floodFill_fills_connected_region_witness :
    ∃ count grid', floodFill 22 [[0, 1], [0, 0]] 0 0 5 = some (count, grid') ∧
      grid'.map List.length = [[0, 1], [0, 0]].map List.length ∧
      ∀ p : GridPos, InBounds [[0, 1], [0, 0]] p →
        (Connected [[0, 1], [0, 0]] 0 ⟨0, 0⟩ p →
          cellAt [[0, 1], [0, 0]] p.x p.y = some 0 ∧ cellAt grid' p.x p.y = some 5) ∧
        (¬ Connected [[0, 1], [0, 0]] 0 ⟨0, 0⟩ p →
          cellAt grid' p.x p.y = cellAt [[0, 1], [0, 0]] p.x p.y) :=
  floodFill_fills_connected_region [[0, 1], [0, 0]] 0 0 5 0 22 (by decide)
    (by decide) (by decide) (by decide) (by decide)
    (by decide)

/-- Claim C2. On a rectangular grid whose sizes fit in `int`, for every start and every new
value, `floodFill` (with enough fuel for its work queue) returns the number of cells whose
value differs between the grid before and the grid after the call. -/
theorem floodFill_returns_changed_count (grid : Grid) (startX startY newValue : Int)
    (fuel : Nat) (hrect : Rect grid) (hfit : Fits32 grid) (hfuel : floodFuel grid ≤ fuel) :
    ∃ count grid', floodFill fuel grid startX startY newValue = some (count, grid') ∧
      count = (diffCount grid grid' : Int) := by
  have hrows : toInt32 (grid.length : Int) = grid.length :=
    toInt32_of_lt _ (by omega) (by have := hfit.1.1; omega)
  have hcols : toInt32 (width grid : Int) = width grid :=
    toInt32_of_lt _ (by omega) (by have := hfit.1.2; omega)
  by_cases hne : grid = [] ∨ width grid = 0
  · exact ⟨0, grid, by unfold floodFill; rw [if_pos hne], by simp [diffCount_self]⟩
  by_cases hout : startX < 0 ∨ startX ≥ (width grid : Int) ∨ startY < 0 ∨
      startY ≥ (grid.length : Int)
  · refine ⟨0, grid, ?_, by simp [diffCount_self]⟩
    unfold floodFill
    rw [if_neg hne]
    simp only [hrows, hcols]
    rw [if_pos hout]
  have hin : InBounds grid ⟨startX, startY⟩ := by
    unfold InBounds
    simp only
    omega
  obtain ⟨v, hv⟩ := cellAt_isSome_of_inBounds hrect hin
  simp only at hv
  by_cases hnv : newValue = v
  · refine ⟨0, grid, ?_, by simp [diffCount_self]⟩
    unfold floodFill
    rw [if_neg hne]
    simp only [hrows, hcols]
    rw [if_neg hout]
    simp [hv, hnv]
  · obtain ⟨g2, hg2, _⟩ := floodFill_of_fill hrect hfit hin hv hnv hfuel
    exact ⟨_, g2, hg2, rfl⟩

theorem floodFill_returns_changed_count_witness :
    (∃ count grid', floodFill 47 [[0, 0, 0], [0, 0, 0], [0, 0, 0]] 1 1 5 = some (count, grid') ∧
      count = (diffCount [[0, 0, 0], [0, 0, 0], [0, 0, 0]] grid' : Int)) ∧
    floodFill 47 [[0, 0, 0], [0, 0, 0], [0, 0, 0]] 1 1 5
      = some (9, [[5, 5, 5], [5, 5, 5], [5, 5, 5]]) :=
  ⟨floodFill_returns_changed_count [[0, 0, 0], [0, 0, 0], [0, 0, 0]] 1 1 5 47 (by decide)
    (by decide) (by decide), by decide⟩

/-- Claim C8. When the dimensions of the grid fit in `int` and the start lies outside
`[0, width) × [0, height)`, `floodFill` returns 0 and leaves the grid unchanged. -/
theorem floodFill_out_of_bounds (grid : Grid) (startX startY newValue : Int) (fuel : Nat)
    (hfit : DimsFit32 grid)
    (hout : startX < 0 ∨ startX ≥ (width grid : Int) ∨ startY < 0 ∨
      startY ≥ (grid.length : Int)) :
    floodFill fuel grid startX startY newValue = some (0, grid) := by
  have hrows : toInt32 (grid.length : Int) = grid.length :=
    toInt32_of_lt _ (by omega) (by have := hfit.1; omega)
  have hcols : toInt32 (width grid : Int) = width grid :=
    toInt32_of_lt _ (by omega) (by have := hfit.2; omega)
  unfold floodFill
  split
  · rfl
  · simp only [hrows, hcols]
    rw [if_pos hout]

theorem floodFill_out_of_bounds_witness :
    floodFill 0 [[1, 2], [3, 4]] (-1) (-1) 7 = some (0, [[1, 2], [3, 4]]) :=
  floodFill_out_of_bounds [[1, 2], [3, 4]] (-1) (-1) 7 0 (by decide)
    (by decide)

/-- Claim C9. When the start cell already holds the new value, `floodFill` returns 0 and
leaves the grid unchanged. -/
theorem floodFill_same_value (grid : Grid) (startX startY newValue : Int) (fuel : Nat)
    (hv : cellAt grid startX startY = some newValue) :
    floodFill fuel grid startX startY newValue = some (0, grid) := by
  unfold floodFill
  split
  · rfl
  · simp only
    split
    · rfl
    · simp [hv]

theorem floodFill_same_value_witness :
    floodFill 0 [[7, 7], [7, 7]] 1 0 7 = some (0, [[7, 7], [7, 7]]) :=
  floodFill_same_value [[7, 7], [7, 7]] 1 0 7 0 (by decide)

/-! ## `clearCompletedRows` -/

theorem isFull_iff (row : List Int) : isFull row = true ↔ ∀ c ∈ row, c ≠ 0 := by
  induction row with
  | nil => simp [isFull]
  | cons a as ih =>
    unfold isFull
    by_cases ha : a = 0
    · simp [ha]
    · simp [ha, ih]

theorem isFull_eq_false_iff (row : List Int) : isFull row = false ↔ (0 : Int) ∈ row := by
  rw [← Bool.not_eq_true, isFull_iff]
  push_neg
  constructor
  · rintro ⟨c, hc, h0⟩
    rw [← h0]
    exact hc
  · intro h
    exact ⟨0, h, rfl⟩

theorem eraseLoop_fst (grid : Grid) (c : Int) :
    (eraseLoop grid c).1 = grid.filter (fun row => decide ((0 : Int) ∈ row)) := by
  induction grid generalizing c with
  | nil => rfl
  | cons row rest ih =>
    unfold eraseLoop
    by_cases hf : isFull row = true
    · have h0 : ¬ ((0 : Int) ∈ row) := by
        rw [← isFull_eq_false_iff]
        simp [hf]
      rw [if_pos hf, ih]
      simp [List.filter_cons, h0]
    · have h0 : (0 : Int) ∈ row := by
        rw [← isFull_eq_false_iff]
        simpa using hf
      rw [if_neg hf]
      simp only
      rw [ih]
      simp [List.filter_cons, h0]

theorem eraseLoop_snd (grid : Grid) (c : Int) (hc : 0 ≤ c)
    (hlt : c + grid.length < 2147483648) :
    (eraseLoop grid c).2 = c + (grid.countP (fun row => decide (∀ x ∈ row, x ≠ 0)) : Nat) := by
  induction grid generalizing c with
  | nil => simp [eraseLoop]
  | cons row rest ih =>
    unfold eraseLoop
    simp only [List.length_cons, Nat.cast_add, Nat.cast_one] at hlt
    by_cases hf : isFull row = true
    · have h0 : ∀ x ∈ row, x ≠ 0 := (isFull_iff row).1 hf
      have hw : toInt32 (c + 1) = c + 1 := toInt32_of_lt _ (by omega) (by omega)
      rw [if_pos hf, hw, ih (c + 1) (by omega) (by omega)]
      rw [List.countP_cons_of_pos _ _ (by simpa using h0)]
      push_cast
      omega
    · have h0 : ¬ ∀ x ∈ row, x ≠ 0 := fun h => hf ((isFull_iff row).2 h)
      rw [if_neg hf]
      simp only
      rw [ih c hc (by omega)]
      rw [List.countP_cons_of_neg _ _ (by simpa using h0)]

theorem insertRows_eq (cols n : Nat) (grid : Grid) :
    insertRows cols n grid = List.replicate n (List.replicate cols 0) ++ grid := by
  induction n generalizing grid with
  | zero => simp [insertRows]
  | succ n ih =>
    rw [insertRows, ih, List.replicate_succ']
    simp

theorem countP_add_filter_length (grid : Grid) :
    grid.countP (fun row => decide (∀ x ∈ row, x ≠ 0))
      + (grid.filter (fun row => decide ((0 : Int) ∈ row))).length = grid.length := by
  induction grid with
  | nil => rfl
  | cons row rest ih =>
    by_cases h0 : (0 : Int) ∈ row
    · have hn : ¬ ∀ x ∈ row, x ≠ 0 := fun h => h 0 h0 rfl
      rw [List.countP_cons_of_neg _ _ (by simpa using hn)]
      simp only [List.filter_cons, h0, decide_True, if_true, List.length_cons]
      omega
    · have hn : ∀ x ∈ row, x ≠ 0 := fun x hx hx0 => h0 (hx0 ▸ hx)
      rw [List.countP_cons_of_pos _ _ (by simpa using hn)]
      simp only [List.filter_cons, h0, decide_False, List.length_cons]
      simp only [Bool.false_eq_true, if_false]
      omega

theorem width_filter_of_rect {grid : Grid} (hrect : Rect grid) (p : List Int → Bool)
    (hne : grid.filter p ≠ []) : width (grid.filter p) = width grid := by
  cases hk : grid.filter p with
  | nil => exact absurd hk hne
  | cons row rest =>
    have hmem : row ∈ grid.filter p := by rw [hk]; exact List.mem_cons_self _ _
    have := hrect row (List.mem_of_mem_filter hmem)
    simpa [width] using this

theorem clearCompletedRows_eq (grid : Grid) (hrect : Rect grid) (hfit : DimsFit32 grid) :
    clearCompletedRows grid
      = some (((grid.countP (fun row => decide (∀ c ∈ row, c ≠ 0)) : Nat) : Int),
          List.replicate (grid.countP (fun row => decide (∀ c ∈ row, c ≠ 0)))
            (List.replicate
              (if grid.filter (fun row => decide ((0 : Int) ∈ row)) = [] then 0 else width grid) 0)
          ++ grid.filter (fun row => decide ((0 : Int) ∈ row))) := by
  have h1 := eraseLoop_fst grid 0
  have h2 := eraseLoop_snd grid 0 (le_refl _) (by have := hfit.1; omega)
  rw [zero_add] at h2
  unfold clearCompletedRows
  simp only [h1, h2]
  by_cases hk : grid.filter (fun row => decide ((0 : Int) ∈ row)) = []
  · simp only [hk, if_true]
    rw [if_neg (by omega)]
    simp [insertRows_eq]
  · simp only [hk, if_false]
    have hw := width_filter_of_rect hrect _ hk
    have hc : toInt32 ((width grid : Nat) : Int) = width grid :=
      toInt32_of_lt _ (by omega) (by have := hfit.2; omega)
    rw [hw, hc, if_neg (by omega)]
    simp [insertRows_eq]

theorem eraseLoop_of_no_full (grid : Grid) (c : Int) (h : ∀ row ∈ grid, (0 : Int) ∈ row) :
    eraseLoop grid c = (grid, c) := by
  induction grid with
  | nil => rfl
  | cons row rest ih =>
    have hf : ¬ (isFull row = true) := by
      rw [Bool.not_eq_true, isFull_eq_false_iff]
      exact h row (List.mem_cons_self _ _)
    unfold eraseLoop
    rw [if_neg hf, ih (fun r hr => h r (List.mem_cons_of_mem _ hr))]

theorem clearCompletedRows_of_no_full (grid : Grid) (h : ∀ row ∈ grid, (0 : Int) ∈ row) :
    clearCompletedRows grid = some (0, grid) := by
  unfold clearCompletedRows
  simp only [eraseLoop_of_no_full grid 0 h]
  rw [if_neg (by omega)]
  simp [insertRows]

/-- Claim C6. On a rectangular grid whose dimensions fit in `int`, `clearCompletedRows`
returns the number `k` of rows in which every cell is non-zero and leaves `k` all-zero rows
followed by the rows that contain a zero, in their original order; the inserted rows have
the width of the grid, or width 0 when no row survives; the number of rows is unchanged. -/
theorem clearCompletedRows_removes_complete_rows (grid : Grid) (hrect : Rect grid)
    (hfit : DimsFit32 grid) :
    ∃ (k : Nat) (grid' : Grid), clearCompletedRows grid = some ((k : Int), grid') ∧
      k = grid.countP (fun row => decide (∀ c ∈ row, c ≠ 0)) ∧
      grid' = List.replicate k (List.replicate
          (if grid.filter (fun row => decide ((0 : Int) ∈ row)) = [] then 0 else width grid) 0)
        ++ grid.filter (fun row => decide ((0 : Int) ∈ row)) ∧
      grid'.length = grid.length := by
  refine ⟨_, _, clearCompletedRows_eq grid hrect hfit, rfl, rfl, ?_⟩
  rw [List.length_append, List.length_replicate]
  exact countP_add_filter_length grid

theorem clearCompletedRows_removes_complete_rows_witness :
    ∃ (k : Nat) (grid' : Grid),
      clearCompletedRows [[0, 1], [1, 1], [1, 0], [0, 0]] = some ((k : Int), grid') ∧
      k = [[0, 1], [1, 1], [1, 0], [0, 0]].countP (fun row => decide (∀ c ∈ row, c ≠ 0)) ∧
      grid' = List.replicate k (List.replicate
          (if [[0, 1], [1, 1], [1, 0], [0, 0]].filter (fun row => decide ((0 : Int) ∈ row)) = []
            then 0 else width [[0, 1], [1, 1], [1, 0], [0, 0]]) 0)
        ++ [[0, 1], [1, 1], [1, 0], [0, 0]].filter (fun row => decide ((0 : Int) ∈ row)) ∧
      grid'.length = [[0, 1], [1, 1], [1, 0], [0, 0]].length :=
  clearCompletedRows_removes_complete_rows [[0, 1], [1, 1], [1, 0], [0, 0]] (by decide)
    (by decide)

/-- Counterexample to claim C7. The rectangular grid `[[1, 1], [2, 2]]` has only complete
rows: the call leaves two rows of width 0, which are complete, and a second call returns 2
again instead of 0. -/
theorem clearCompletedRows_second_call_counterexample :
    Rect [[1, 1], [2, 2]] ∧ DimsFit32 [[1, 1], [2, 2]] ∧
    clearCompletedRows [[1, 1], [2, 2]] = some (2, [[], []]) ∧
    (∃ row ∈ ([[], []] : Grid), ∀ c ∈ row, c ≠ 0) ∧
    clearCompletedRows [[], []] = some (2, [[], []]) ∧
    clearCompletedRows [[], []] ≠ some (0, [[], []]) := by
  refine ⟨by decide, by decide, by decide, ⟨[], by simp, by simp⟩, by decide, by decide⟩

/-- Claim C7, amended. On a rectangular grid whose dimensions fit in `int` and that is empty
or has at least one row containing a zero, after `clearCompletedRows` no row in which every
cell is non-zero remains, and a second call returns 0 and leaves the grid unchanged. -/
theorem clearCompletedRows_idempotent_of_survivor (grid : Grid) (hrect : Rect grid)
    (hfit : DimsFit32 grid) (hsurv : grid = [] ∨ ∃ row ∈ grid, (0 : Int) ∈ row) :
    ∃ (k : Int) (grid' : Grid), clearCompletedRows grid = some (k, grid') ∧
      (∀ row ∈ grid', ¬ ∀ c ∈ row, c ≠ 0) ∧
      clearCompletedRows grid' = some (0, grid') := by
  have hall : ∀ row ∈ (List.replicate (grid.countP (fun row => decide (∀ c ∈ row, c ≠ 0)))
      (List.replicate
        (if grid.filter (fun row => decide ((0 : Int) ∈ row)) = [] then 0 else width grid) 0)
      ++ grid.filter (fun row => decide ((0 : Int) ∈ row))), (0 : Int) ∈ row := by
    intro row hrow
    rcases List.mem_append.1 hrow with h | h
    · rcases hsurv with hs | ⟨r, hr, h0⟩
      · subst hs
        simp at h
      · have hne : grid.filter (fun row => decide ((0 : Int) ∈ row)) ≠ [] := by
          intro hcon
          have : r ∈ grid.filter (fun row => decide ((0 : Int) ∈ row)) :=
            List.mem_filter.2 ⟨hr, by simpa using h0⟩
          rw [hcon] at this
          exact absurd this (List.not_mem_nil _)
        have hw : 0 < width grid := by
          rw [← hrect r hr]
          exact List.length_pos_of_mem h0
        rw [if_neg hne] at h
        rw [List.eq_of_mem_replicate h]
        exact List.mem_replicate.2 ⟨by omega, rfl⟩
    · simpa using (List.mem_filter.1 h).2
  refine ⟨_, _, clearCompletedRows_eq grid hrect hfit, ?_, clearCompletedRows_of_no_full _ hall⟩
  intro row hrow hc
  exact hc 0 (hall row hrow) rfl

theorem clearCompletedRows_idempotent_of_survivor_witness :
    ∃ (k : Int) (grid' : Grid),
      clearCompletedRows [[0, 1], [1, 1], [1, 0], [0, 0]] = some (k, grid') ∧
      (∀ row ∈ grid', ¬ ∀ c ∈ row, c ≠ 0) ∧
      clearCompletedRows grid' = some (0, grid') :=
  clearCompletedRows_idempotent_of_survivor [[0, 1], [1, 1], [1, 0], [0, 0]] (by decide)
    (by decide) (Or.inr ⟨[0, 1], by decide, by decide⟩)

/-! ## `aStarPath`: arithmetic of keys and neighbours -/

theorem cellCount_of_rect {grid : Grid} (hrect : Rect grid) :
    cellCount grid = grid.length * width grid := by
  unfold cellCount
  have h : ∀ (g : Grid) (w : Nat), (∀ row ∈ g, row.length = w) →
      (g.map List.length).sum = g.length * w := by
    intro g w
    induction g with
    | nil => intro _; simp
    | cons r rs ih =>
      intro hw
      simp only [List.map_cons, List.sum_cons, List.length_cons]
      rw [ih (fun row hr => hw row (List.mem_cons_of_mem _ hr)), hw r (List.mem_cons_self _ _)]
      ring
  exact h grid (width grid) hrect

theorem key_bounds {grid : Grid} {p : GridPos} (hp : InBounds grid p) :
    0 ≤ p.y * (width grid : Int) + p.x ∧
    p.y * (width grid : Int) + p.x < (grid.length : Int) * (width grid : Int) := by
  obtain ⟨hx0, hx1, hy0, hy1⟩ := hp
  have hw : (0 : Int) ≤ (width grid : Int) := by omega
  constructor
  · have := mul_nonneg hy0 hw
    omega
  · have h1 : p.y + 1 ≤ (grid.length : Int) := by omega
    have h2 := mul_le_mul_of_nonneg_right h1 hw
    have h3 : (p.y + 1) * (width grid : Int) = p.y * (width grid : Int) + (width grid : Int) := by
      ring
    omega

theorem key_of_inBounds {grid : Grid} (hrect : Rect grid) (hfit : Fits32 grid) {p : GridPos}
    (hp : InBounds grid p) :
    key (width grid) p = p.y * (width grid : Int) + p.x := by
  have hb := key_bounds hp
  have hc : (grid.length : Int) * (width grid : Int) < 2147483648 := by
    have h1 := cellCount_of_rect hrect
    have h2 := hfit.2
    rw [h1] at h2
    exact_mod_cast h2
  unfold key
  exact toInt32_of_lt _ (by omega) (by omega)

theorem key_inj {grid : Grid} (hrect : Rect grid) (hfit : Fits32 grid) {p q : GridPos}
    (hp : InBounds grid p) (hq : InBounds grid q)
    (h : key (width grid) p = key (width grid) q) : p = q := by
  rw [key_of_inBounds hrect hfit hp, key_of_inBounds hrect hfit hq] at h
  obtain ⟨hx0, hx1, hy0, hy1⟩ := hp
  obtain ⟨hx2, hx3, hy2, hy3⟩ := hq
  have hy : p.y = q.y := by
    by_contra hne
    rcases lt_or_gt_of_ne hne with hlt | hgt
    · have h1 : p.y + 1 ≤ q.y := by omega
      have h2 := mul_le_mul_of_nonneg_right h1 (show (0 : Int) ≤ (width grid : Int) by omega)
      have h3 : (p.y + 1) * (width grid : Int) = p.y * (width grid : Int) + (width grid : Int) := by
        ring
      omega
    · have h1 : q.y + 1 ≤ p.y := by omega
      have h2 := mul_le_mul_of_nonneg_right h1 (show (0 : Int) ≤ (width grid : Int) by omega)
      have h3 : (q.y + 1) * (width grid : Int) = q.y * (width grid : Int) + (width grid : Int) := by
        ring
      omega
  have hx : p.x = q.x := by
    rw [hy] at h
    omega
  cases p; cases q
  simp only [GridPos.mk.injEq]
  exact ⟨hx, hy⟩

theorem posInt32_of_inBounds {grid : Grid} (hfit : DimsFit32 grid) {p : GridPos}
    (hp : InBounds grid p) : PosInt32 p := by
  obtain ⟨hx0, hx1, hy0, hy1⟩ := hp
  have h1 := hfit.1
  have h2 := hfit.2
  unfold PosInt32 IsInt32
  omega

theorem mem_dirs {d : GridPos} (hd : d ∈ dirs) :
    (d.x = 1 ∧ d.y = 0) ∨ (d.x = -1 ∧ d.y = 0) ∨ (d.x = 0 ∧ d.y = 1) ∨ (d.x = 0 ∧ d.y = -1) := by
  simp only [dirs, List.mem_cons, List.mem_singleton, List.not_mem_nil, or_false] at hd
  rcases hd with h | h | h | h <;> subst h <;> simp

theorem adj_stepBy {p d : GridPos} (hd : d ∈ dirs) : Adj p (stepBy p d) := by
  unfold Adj stepBy
  dsimp only
  rcases mem_dirs hd with h | h | h | h <;> rw [h.1, h.2] <;> omega

theorem adj_iff_stepBy {p q : GridPos} : Adj p q ↔ ∃ d ∈ dirs, q = stepBy p d := by
  constructor
  · intro h
    rcases h with h | h | h | h
    · exact ⟨⟨1, 0⟩, by simp [dirs], by cases q; simp only [stepBy, GridPos.mk.injEq]; simp at h; omega⟩
    · exact ⟨⟨-1, 0⟩, by simp [dirs], by cases q; simp only [stepBy, GridPos.mk.injEq]; simp at h; omega⟩
    · exact ⟨⟨0, 1⟩, by simp [dirs], by cases q; simp only [stepBy, GridPos.mk.injEq]; simp at h; omega⟩
    · exact ⟨⟨0, -1⟩, by simp [dirs], by cases q; simp only [stepBy, GridPos.mk.injEq]; simp at h; omega⟩
  · rintro ⟨d, hd, rfl⟩
    exact adj_stepBy hd

theorem adj_ne {p q : GridPos} (h : Adj p q) : p ≠ q := by
  intro hpq
  subst hpq
  unfold Adj at h
  omega

theorem adj_symm {p q : GridPos} (h : Adj p q) : Adj q p := by
  unfold Adj at *
  omega

/-- The neighbour computed with wrap-around is in bounds exactly when the exact neighbour
is, and then both are equal. -/
theorem wrapped_neighbor {grid : Grid} (hfit : DimsFit32 grid) {p d : GridPos}
    (hp : PosInt32 p) (hd : d ∈ dirs) :
    (¬ ((toInt32 (p.x + d.x) < 0 ∨ toInt32 (p.x + d.x) ≥ (width grid : Int) ∨
        toInt32 (p.y + d.y) < 0 ∨ toInt32 (p.y + d.y) ≥ (grid.length : Int)))
      ↔ InBounds grid (stepBy p d)) ∧
    (InBounds grid (stepBy p d) →
      (⟨toInt32 (p.x + d.x), toInt32 (p.y + d.y)⟩ : GridPos) = stepBy p d) := by
  have h1 := hfit.1
  have h2 := hfit.2
  obtain ⟨⟨hx0, hx1⟩, ⟨hy0, hy1⟩⟩ := hp
  have hdd := mem_dirs hd
  unfold InBounds stepBy toInt32
  simp only [GridPos.mk.injEq]
  constructor
  · constructor
    · intro h
      omega
    · intro h
      omega
  · intro h
    omega

/-! ## `aStarPath`: the open set and one relaxation -/

theorem exists_isTop (l : List Node) (hl : l ≠ []) : ∃ n ∈ l, isTop l n = true := by
  induction l with
  | nil => exact absurd rfl hl
  | cons a as ih =>
    by_cases has : as = []
    · subst has
      exact ⟨a, List.mem_cons_self _ _, by simp [isTop]⟩
    · obtain ⟨n, hn, htop⟩ := ih has
      simp only [isTop, List.all_eq_true, decide_eq_true_eq] at htop
      by_cases hle : a.fScore ≤ n.fScore
      · refine ⟨a, List.mem_cons_self _ _, ?_⟩
        simp only [isTop, List.all_eq_true, decide_eq_true_eq, List.mem_cons]
        rintro m (rfl | hm)
        · exact le_refl _
        · exact le_trans hle (htop m hm)
      · refine ⟨n, List.mem_cons_of_mem _ hn, ?_⟩
        simp only [isTop, List.all_eq_true, decide_eq_true_eq, List.mem_cons]
        rintro m (rfl | hm)
        · omega
        · exact htop m hm

theorem popTop_spec {c : Nat} {l : List Node} {n : Node} {rest : List Node}
    (h : popTop c l = some (n, rest)) :
    n ∈ l ∧ (∀ m ∈ l, n.fScore ≤ m.fScore) ∧ rest = l.erase n := by
  unfold popTop at h
  split at h
  · exact absurd h (by simp)
  · rename_i k hk
    simp only [Option.some.injEq, Prod.mk.injEq] at h
    obtain ⟨h1, h2⟩ := h
    subst h1
    have hmem : k ∈ l.filter (isTop l) := List.getElem?_mem hk
    obtain ⟨hkl, htop⟩ := List.mem_filter.1 hmem
    simp only [isTop, List.all_eq_true, decide_eq_true_eq] at htop
    exact ⟨hkl, htop, h2.symm⟩

theorem popTop_isSome (c : Nat) {l : List Node} (hl : l ≠ []) :
    ∃ n rest, popTop c l = some (n, rest) := by
  obtain ⟨n, hn, htop⟩ := exists_isTop l hl
  have hmem : n ∈ l.filter (isTop l) := List.mem_filter.2 ⟨hn, htop⟩
  have hpos : 0 < (l.filter (isTop l)).length := List.length_pos_of_mem hmem
  have hlt : c % (l.filter (isTop l)).length < (l.filter (isTop l)).length :=
    Nat.mod_lt _ hpos
  unfold popTop
  rw [List.getElem?_eq_getElem hlt]
  exact ⟨_, _, rfl⟩

theorem popTop_nil (c : Nat) : popTop c [] = none := by
  simp [popTop]

theorem relax_spec {grid : Grid} (hrect : Rect grid) (hfit : Fits32 grid) (goal : GridPos)
    {cur d : GridPos} {st : AStarState} {gc : Int} (hcur : PosInt32 cur) (hd : d ∈ dirs)
    (hg : st.gScore (key (width grid) cur) = some gc) :
    (¬ Free grid (stepBy cur d) ∧
      relax grid grid.length (width grid) goal cur st d = some st) ∨
    (Free grid (stepBy cur d) ∧
      (∃ gN, st.gScore (key (width grid) (stepBy cur d)) = some gN ∧ gN ≤ gc + 1) ∧
      relax grid grid.length (width grid) goal cur st d = some st) ∨
    (Free grid (stepBy cur d) ∧
      (∀ gN, st.gScore (key (width grid) (stepBy cur d)) = some gN → gc + 1 < gN) ∧
      relax grid grid.length (width grid) goal cur st d
        = some (relaxedState (width grid) goal cur (stepBy cur d) (gc + 1) st)) := by
  obtain ⟨hw1, hw2⟩ := wrapped_neighbor hfit.1 hcur hd
  by_cases hin : InBounds grid (stepBy cur d)
  · have heq := hw2 hin
    have hnot := hw1.2 hin
    obtain ⟨c, hc⟩ := cellAt_isSome_of_inBounds hrect hin
    have hc2 : cellAt grid (toInt32 (cur.x + d.x)) (toInt32 (cur.y + d.y)) = some c := by
      have h1 : toInt32 (cur.x + d.x) = (stepBy cur d).x := by rw [← heq]
      have h2 : toInt32 (cur.y + d.y) = (stepBy cur d).y := by rw [← heq]
      rw [h1, h2]
      exact hc
    by_cases hc0 : c = 0
    · subst hc0
      have hfree : Free grid (stepBy cur d) := ⟨hin, hc⟩
      cases hgn : st.gScore (key (width grid) (stepBy cur d)) with
      | none =>
        right; right
        refine ⟨hfree, fun gN h => by simp at h, ?_⟩
        unfold relax
        simp only [hnot, if_false, hc2, ne_eq, not_true_eq_false, hg, heq, hgn,
          Option.getD_some]
        rfl
      | some gN =>
        by_cases hlt : gc + 1 < gN
        · right; right
          refine ⟨hfree, fun g h => by
            simp only [Option.some.injEq] at h
            omega, ?_⟩
          unfold relax
          simp only [hnot, if_false, hc2, ne_eq, not_true_eq_false, hg, heq, hgn,
            Option.getD_some, hlt, if_true]
          rfl
        · right; left
          refine ⟨hfree, ⟨gN, rfl, by omega⟩, ?_⟩
          unfold relax
          simp only [hnot, if_false, hc2, ne_eq, not_true_eq_false, hg, heq, hgn,
            Option.getD_some, hlt]
    · left
      refine ⟨fun hf => ?_, ?_⟩
      · rw [hf.2] at hc
        exact hc0 (Option.some.inj hc).symm
      · unfold relax
        simp only [hnot, if_false, hc2, ne_eq, hc0, not_false_eq_true, if_true]
  · left
    refine ⟨fun hf => hin hf.1, ?_⟩
    have hout : toInt32 (cur.x + d.x) < 0 ∨ toInt32 (cur.x + d.x) ≥ (width grid : Int) ∨
        toInt32 (cur.y + d.y) < 0 ∨ toInt32 (cur.y + d.y) ≥ (grid.length : Int) := by
      by_contra hcon
      exact hin (hw1.1 hcon)
    unfold relax
    simp only [hout, if_true]

/-! ## `aStarPath`: the invariant that holds for every start -/

theorem setKey_same {α : Type} (m : Int → Option α) (k : Int) (v : α) :
    setKey m k v k = some v := by
  simp [setKey]

theorem setKey_other {α : Type} (m : Int → Option α) {k j : Int} (v : α) (h : j ≠ k) :
    setKey m k v j = m j := by
  simp [setKey, h]

theorem Reached.gdef {grid : Grid} {start : GridPos} {st : AStarState}
    (inv : AStarInv grid start st) {p : GridPos} (hp : Reached grid start st p) :
    ∃ g, st.gScore (key (width grid) p) = some g := by
  rcases hp with h | ⟨hf, q, hq⟩
  · subst h
    exact ⟨0, inv.gstart⟩
  · obtain ⟨_, _, _, gp, _, hgp, _, _⟩ := inv.link p q hf hq
    exact ⟨gp, hgp⟩

theorem Reached.posInt32 {grid : Grid} {start : GridPos} {st : AStarState}
    (hfit : Fits32 grid) (hstart : PosInt32 start) {p : GridPos}
    (hp : Reached grid start st p) : PosInt32 p := by
  rcases hp with h | ⟨hf, _⟩
  · subst h
    exact hstart
  · exact posInt32_of_inBounds hfit.1 hf.1

theorem AStarInv.initial (grid : Grid) (start goal : GridPos) :
    AStarInv grid start
      { openSet := [⟨start, heuristic start goal⟩]
        cameFrom := fun _ => none
        gScore := setKey (fun _ => none) (key (width grid) start) 0 } where
  gstart := by
    simp only
    exact setKey_same _ _ _
  gnonneg := by
    intro k g h
    simp only [setKey] at h
    split at h
    · simp only [Option.some.injEq] at h
      omega
    · exact absurd h (by simp)
  opn := by
    intro n hn
    rw [List.mem_singleton] at hn
    subst hn
    exact Or.inl rfl
  link := by
    intro p q _ h
    exact absurd h (by simp)

theorem AStarInv.popped {grid : Grid} {start : GridPos} {st : AStarState}
    (inv : AStarInv grid start st) {rest : List Node} (hsub : ∀ n ∈ rest, n ∈ st.openSet) :
    AStarInv grid start { st with openSet := rest } where
  gstart := inv.gstart
  gnonneg := inv.gnonneg
  opn := fun n hn => inv.opn n (hsub n hn)
  link := inv.link

/-- Facts about the keys that hold whenever a neighbour is entered. -/
theorem relaxed_keys {grid : Grid} {start : GridPos} {st : AStarState} (hrect : Rect grid)
    (hfit : Fits32 grid) (inv : AStarInv grid start st) {cur nb : GridPos} {gc : Int}
    (hcur : Reached grid start st cur) (hg : st.gScore (key (width grid) cur) = some gc)
    (hfree : Free grid nb) (hadj : Adj cur nb)
    (hlt : ∀ gN, st.gScore (key (width grid) nb) = some gN → gc + 1 < gN) :
    key (width grid) nb ≠ key (width grid) start ∧
    key (width grid) nb ≠ key (width grid) cur := by
  have hgc : 0 ≤ gc := inv.gnonneg _ _ hg
  have hks : key (width grid) nb ≠ key (width grid) start := by
    intro h
    have := hlt 0 (by rw [h]; exact inv.gstart)
    omega
  refine ⟨hks, ?_⟩
  rcases hcur with h | ⟨hf, _⟩
  · rw [h]; exact hks
  · intro h
    exact adj_ne hadj (key_inj hrect hfit hfree.1 hf.1 h).symm

theorem AStarInv.relaxedInv {grid : Grid} {start : GridPos} {st : AStarState} (hrect : Rect grid)
    (hfit : Fits32 grid) (inv : AStarInv grid start st) (goal : GridPos) {cur nb : GridPos}
    {gc : Int} (hcur : Reached grid start st cur)
    (hg : st.gScore (key (width grid) cur) = some gc)
    (hfree : Free grid nb) (hadj : Adj cur nb)
    (hlt : ∀ gN, st.gScore (key (width grid) nb) = some gN → gc + 1 < gN) :
    AStarInv grid start (relaxedState (width grid) goal cur nb (gc + 1) st) := by
  obtain ⟨hks, hkc⟩ := relaxed_keys hrect hfit inv hcur hg hfree hadj hlt
  have hgc : 0 ≤ gc := inv.gnonneg _ _ hg
  have hmono : ∀ p, Reached grid start st p →
      Reached grid start (relaxedState (width grid) goal cur nb (gc + 1) st) p := by
    intro p hp
    rcases hp with h | ⟨hf, q, hq⟩
    · exact Or.inl h
    · right
      refine ⟨hf, ?_⟩
      by_cases hk : key (width grid) p = key (width grid) nb
      · exact ⟨cur, by simp [relaxedState, setKey, hk]⟩
      · exact ⟨q, by simp only [relaxedState]; rw [setKey_other _ _ hk]; exact hq⟩
  refine ⟨?_, ?_, ?_, ?_⟩
  · simp only [relaxedState]
    rw [setKey_other _ _ (Ne.symm hks)]
    exact inv.gstart
  · intro k g h
    simp only [relaxedState, setKey] at h
    split at h
    · simp only [Option.some.injEq] at h
      omega
    · exact inv.gnonneg k g h
  · intro n hn
    simp only [relaxedState, List.mem_append, List.mem_singleton] at hn
    rcases hn with h | h
    · exact hmono _ (inv.opn n h)
    · subst h
      right
      exact ⟨hfree, cur, by simp [relaxedState, setKey]⟩
  · intro p q hp hq
    by_cases hk : key (width grid) p = key (width grid) nb
    · have hpe : p = nb := key_inj hrect hfit hp.1 hfree.1 hk
      subst hpe
      simp only [relaxedState, setKey_same, Option.some.injEq] at hq
      subst hq
      refine ⟨hadj, hmono _ hcur, hks, gc + 1, gc, ?_, ?_, le_refl _⟩
      · simp [relaxedState, setKey]
      · simp only [relaxedState]
        rw [setKey_other _ _ (Ne.symm hkc)]
        exact hg
    · simp only [relaxedState] at hq
      rw [setKey_other _ _ hk] at hq
      obtain ⟨h1, h2, h3, gp, gq, hgp, hgq, hle⟩ := inv.link p q hp hq
      refine ⟨h1, hmono _ h2, h3, ?_⟩
      by_cases hkq : key (width grid) q = key (width grid) nb
      · refine ⟨gp, gc + 1, ?_, ?_, ?_⟩
        · simp only [relaxedState]
          rw [setKey_other _ _ hk]
          exact hgp
        · simp [relaxedState, setKey, hkq]
        · have := hlt gq (by rw [← hkq]; exact hgq)
          omega
      · refine ⟨gp, gq, ?_, ?_, hle⟩
        · simp only [relaxedState]
          rw [setKey_other _ _ hk]
          exact hgp
        · simp only [relaxedState]
          rw [setKey_other _ _ hkq]
          exact hgq

/-- Properties proved about a loop state are carried through the four relaxations. The
predicate is indexed by the directions that are still to be processed. -/
theorem relaxDirs_induct (grid : Grid) (rows cols : Int) (goal cur : GridPos)
    (P : List GridPos → AStarState → Prop)
    (hstep : ∀ d rest st, P (d :: rest) st →
      ∃ st1, relax grid rows cols goal cur st d = some st1 ∧ P rest st1) :
    ∀ ds st, P ds st → ∃ st1, relaxDirs grid rows cols goal cur ds st = some st1 ∧ P [] st1 := by
  intro ds
  induction ds with
  | nil =>
    intro st h
    exact ⟨st, rfl, h⟩
  | cons d rest ih =>
    intro st h
    obtain ⟨st1, h1, h2⟩ := hstep d rest st h
    obtain ⟨st2, h3, h4⟩ := ih st1 h2
    refine ⟨st2, ?_, h4⟩
    simp only [relaxDirs, h1]
    exact h3

/-! ## `aStarPath`: the predecessor walk -/

theorem walkBack_spec {grid : Grid} {start : GridPos} {st : AStarState}
    (inv : AStarInv grid start st) :
    ∀ (fuel : Nat) (p : GridPos) (l : List GridPos) (gp : Int),
      Reached grid start st p → st.gScore (key (width grid) p) = some gp →
      walkBack (width grid) start st.cameFrom fuel p = some l →
      l.head? = some p ∧ l.getLast? = some start ∧ List.Chain' (flip Adj) l ∧
      (∀ x ∈ l.dropLast, Free grid x) ∧ (l.length : Int) ≤ gp + 1 := by
  intro fuel
  induction fuel with
  | zero =>
    intro p l gp hp hg hw
    have hgp := inv.gnonneg _ _ hg
    simp only [walkBack] at hw
    split at hw
    · rename_i hps
      simp only [Option.some.injEq] at hw
      subst hw; subst hps
      refine ⟨rfl, rfl, List.chain'_singleton _, by simp, ?_⟩
      simp only [List.length_singleton, Nat.cast_one]
      omega
    · exact absurd hw (by simp)
  | succ fuel ih =>
    intro p l gp hp hg hw
    have hgp := inv.gnonneg _ _ hg
    simp only [walkBack] at hw
    split at hw
    · rename_i hps
      simp only [Option.some.injEq] at hw
      subst hw; subst hps
      refine ⟨rfl, rfl, List.chain'_singleton _, by simp, ?_⟩
      simp only [List.length_singleton, Nat.cast_one]
      omega
    · rename_i hps
      rcases hp with h | ⟨hf, q, hq⟩
      · exact absurd h hps
      · obtain ⟨hadj, hrq, _, gp2, gq, hgp2, hgq, hle⟩ := inv.link p q hf hq
        rw [hg] at hgp2
        simp only [Option.some.injEq] at hgp2
        subst hgp2
        rw [hq, Option.getD_some] at hw
        cases hwq : walkBack (width grid) start st.cameFrom fuel q with
        | none => rw [hwq] at hw; exact absurd hw (by simp)
        | some l2 =>
          rw [hwq] at hw
          simp only [Option.map_some', Option.some.injEq] at hw
          subst hw
          obtain ⟨h1, h2, h3, h4, h5⟩ := ih q l2 gq hrq hgq hwq
          have hne : l2 ≠ [] := by
            intro hcon
            rw [hcon] at h1
            exact absurd h1 (by simp)
          refine ⟨rfl, ?_, ?_, ?_, ?_⟩
          · rw [List.getLast?_cons, h2]
            rfl
          · rw [List.chain'_cons']
            refine ⟨?_, h3⟩
            intro y hy
            rw [h1] at hy
            simp only [Option.mem_def, Option.some.injEq] at hy
            subst hy
            exact hadj
          · intro x hx
            rw [List.dropLast_cons_of_ne_nil hne] at hx
            rcases List.mem_cons.1 hx with h | h
            · rw [h]; exact hf
            · exact h4 x h
          · simp only [List.length_cons, Nat.cast_add, Nat.cast_one]
            omega

theorem walkBack_total {grid : Grid} {start : GridPos} {st : AStarState}
    (inv : AStarInv grid start st) :
    ∀ (fuel : Nat) (p : GridPos) (gp : Int),
      Reached grid start st p → st.gScore (key (width grid) p) = some gp → gp ≤ fuel →
      ∃ l, walkBack (width grid) start st.cameFrom fuel p = some l := by
  intro fuel
  induction fuel with
  | zero =>
    intro p gp hp hg hle
    rcases hp with h | ⟨hf, q, hq⟩
    · exact ⟨[start], by simp [walkBack, h]⟩
    · obtain ⟨_, _, _, gp2, gq, hgp2, hgq, hle2⟩ := inv.link p q hf hq
      have := inv.gnonneg _ _ hgq
      rw [hg] at hgp2
      simp only [Option.some.injEq] at hgp2
      simp only [CharP.cast_eq_zero] at hle
      omega
  | succ fuel ih =>
    intro p gp hp hg hle
    by_cases hps : p = start
    · exact ⟨[start], by simp [walkBack, hps]⟩
    · rcases hp with h | ⟨hf, q, hq⟩
      · exact absurd h hps
      · obtain ⟨_, hrq, _, gp2, gq, hgp2, hgq, hle2⟩ := inv.link p q hf hq
        rw [hg] at hgp2
        simp only [Option.some.injEq] at hgp2
        obtain ⟨l2, hl2⟩ := ih q gq hrq hgq (by push_cast at hle; omega)
        refine ⟨p :: l2, ?_⟩
        simp only [walkBack, hps, if_false, hq, Option.getD_some, hl2, Option.map_some']

theorem validPath_of_walk {grid : Grid} {start p : GridPos} {l : List GridPos}
    (h1 : l.head? = some p) (h2 : l.getLast? = some start) (h3 : List.Chain' (flip Adj) l)
    (h4 : ∀ x ∈ l.dropLast, Free grid x) : ValidPath grid start p l.reverse := by
  refine ⟨?_, ?_, ?_, ?_⟩
  · rw [List.head?_reverse]; exact h2
  · rw [List.getLast?_reverse]; exact h1
  · rw [List.chain'_reverse]; exact h3
  · intro x hx
    rw [List.tail_reverse] at hx
    exact h4 x (List.mem_reverse.1 hx)

/-! ## `aStarPath`: termination measure -/

theorem gDefined_le (n : Nat) (st : AStarState) : gDefined n st ≤ n := by
  unfold gDefined
  calc _ ≤ (Finset.range n).card := Finset.card_filter_le _ _
    _ = n := Finset.card_range n

theorem Reached.afterRelax {grid : Grid} {start : GridPos} {st : AStarState} (goal cur nb : GridPos)
    (g : Int) {p : GridPos} (hp : Reached grid start st p) :
    Reached grid start (relaxedState (width grid) goal cur nb g st) p := by
  rcases hp with h | ⟨hf, q, hq⟩
  · exact Or.inl h
  · right
    refine ⟨hf, ?_⟩
    by_cases hk : key (width grid) p = key (width grid) nb
    · exact ⟨cur, by simp [relaxedState, setKey, hk]⟩
    · exact ⟨q, by simp only [relaxedState]; rw [setKey_other _ _ hk]; exact hq⟩

theorem termInv_relaxed {n : Nat} {st : AStarState} {cols : Int} (goal cur nb : GridPos)
    {gc : Int} {kc : Int} (hterm : TermInv n st) (hg : st.gScore kc = some gc)
    (hk0 : 0 ≤ key cols nb) (hk1 : key cols nb < n)
    (hlt : ∀ gN, st.gScore (key cols nb) = some gN → gc + 1 < gN) :
    TermInv n (relaxedState cols goal cur nb (gc + 1) st) := by
  have hsub : (Finset.range n).filter (fun k : Nat => (st.gScore (k : Int)).isSome = true) ⊆
      (Finset.range n).filter (fun k : Nat =>
        ((relaxedState cols goal cur nb (gc + 1) st).gScore (k : Int)).isSome = true) := by
    intro k hk
    rw [Finset.mem_filter] at hk ⊢
    refine ⟨hk.1, ?_⟩
    simp only [relaxedState, setKey]
    split
    · rfl
    · exact hk.2
  have hmono : gDefined n st ≤ gDefined n (relaxedState cols goal cur nb (gc + 1) st) :=
    Finset.card_le_card hsub
  intro k g h
  simp only [relaxedState, setKey] at h
  split at h
  · rename_i hkk
    simp only [Option.some.injEq] at h
    subst h
    cases hold : st.gScore (key cols nb) with
    | none =>
      have hnot : (key cols nb).toNat ∉
          (Finset.range n).filter (fun k : Nat => (st.gScore (k : Int)).isSome = true) := by
        intro hmem
        rw [Finset.mem_filter] at hmem
        have h2 := hmem.2
        rw [Int.toNat_of_nonneg hk0, hold] at h2
        simp at h2
      have hin : (key cols nb).toNat ∈ (Finset.range n).filter (fun k : Nat =>
          ((relaxedState cols goal cur nb (gc + 1) st).gScore (k : Int)).isSome = true) := by
        rw [Finset.mem_filter]
        refine ⟨Finset.mem_range.2 (by omega), ?_⟩
        rw [Int.toNat_of_nonneg hk0]
        simp [relaxedState, setKey]
      have hss : (Finset.range n).filter (fun k : Nat => (st.gScore (k : Int)).isSome = true) ⊂
          (Finset.range n).filter (fun k : Nat =>
            ((relaxedState cols goal cur nb (gc + 1) st).gScore (k : Int)).isSome = true) :=
        (Finset.ssubset_iff_of_subset hsub).2 ⟨_, hin, hnot⟩
      have hcard := Finset.card_lt_card hss
      have hgc := hterm _ _ hg
      unfold gDefined at hgc ⊢
      omega
    | some gN =>
      have h1 := hlt gN hold
      have h2 := hterm _ _ hold
      omega
  · have := hterm k g h
    omega

theorem loopMeasure_relaxed {n : Nat} {st : AStarState} {cols : Int} (goal cur nb : GridPos)
    {gc : Int} {kc : Int} (hterm : TermInv n st) (hg : st.gScore kc = some gc) (hgc : 0 ≤ gc)
    (hk0 : 0 ≤ key cols nb) (hk1 : key cols nb < n)
    (hlt : ∀ gN, st.gScore (key cols nb) = some gN → gc + 1 < gN) :
    loopMeasure n (relaxedState cols goal cur nb (gc + 1) st) + 1 ≤ loopMeasure n st := by
  have hle : ∀ k ∈ Finset.range n,
      gVal n ((relaxedState cols goal cur nb (gc + 1) st).gScore (k : Int))
        ≤ gVal n (st.gScore (k : Int)) := by
    intro k _
    simp only [relaxedState, setKey]
    split
    · rename_i hkk
      rw [hkk]
      cases hold : st.gScore (key cols nb) with
      | none =>
        have h1 := hterm _ _ hg
        have h2 := gDefined_le n st
        simp only [gVal]
        omega
      | some gN =>
        have h1 := hlt gN hold
        simp only [gVal]
        omega
    · exact le_refl _
  have hlt2 : ∃ k ∈ Finset.range n,
      gVal n ((relaxedState cols goal cur nb (gc + 1) st).gScore (k : Int))
        < gVal n (st.gScore (k : Int)) := by
    refine ⟨(key cols nb).toNat, Finset.mem_range.2 (by omega), ?_⟩
    rw [Int.toNat_of_nonneg hk0]
    simp only [relaxedState, setKey, if_true]
    cases hold : st.gScore (key cols nb) with
    | none =>
      have h1 := hterm _ _ hg
      have h2 := gDefined_le n st
      simp only [gVal]
      omega
    | some gN =>
      have h1 := hlt gN hold
      simp only [gVal]
      omega
  have hsum := Finset.sum_lt_sum hle hlt2
  unfold loopMeasure gPotential
  simp only [relaxedState, List.length_append, List.length_singleton] at hsum ⊢
  omega

theorem termInv_init (n : Nat) (l : List Node) (cf : Int → Option GridPos) (k : Int) :
    TermInv n { openSet := l, cameFrom := cf, gScore := setKey (fun _ => none) k 0 } := by
  intro j g h
  simp only [setKey] at h
  split at h
  · simp only [Option.some.injEq] at h
    omega
  · exact absurd h (by simp)

theorem loopMeasure_init (n : Nat) (x : Node) (cf : Int → Option GridPos) (k : Int) :
    loopMeasure n { openSet := [x], cameFrom := cf, gScore := setKey (fun _ => none) k 0 }
      ≤ 2 * (n * (n + 2)) + 1 := by
  have hle : ∀ j ∈ Finset.range n,
      gVal n ((setKey (fun _ => none) k (0 : Int)) (j : Int)) ≤ n + 2 := by
    intro j _
    simp only [setKey]
    split <;> simp [gVal]
  have hsum := Finset.sum_le_card_nsmul _ _ _ hle
  simp only [Finset.card_range, smul_eq_mul] at hsum
  unfold loopMeasure gPotential
  simp only [List.length_singleton]
  omega

/-! ## `aStarPath`: the frontier loop, for every start -/

theorem key_lt_cellCount {grid : Grid} (hrect : Rect grid) (hfit : Fits32 grid) {p : GridPos}
    (hp : InBounds grid p) :
    0 ≤ key (width grid) p ∧ key (width grid) p < (cellCount grid : Nat) := by
  rw [key_of_inBounds hrect hfit hp, cellCount_of_rect hrect]
  have := key_bounds hp
  push_cast
  exact this

theorem relaxDirs_inv {grid : Grid} (hrect : Rect grid) (hfit : Fits32 grid)
    {start : GridPos} (hstart : PosInt32 start) (goal : GridPos) {cur : GridPos}
    {st : AStarState} (inv : AStarInv grid start st) (hcur : Reached grid start st cur)
    (hterm : TermInv (cellCount grid) st) :
    ∃ st1, relaxDirs grid grid.length (width grid) goal cur dirs st = some st1 ∧
      AStarInv grid start st1 ∧ TermInv (cellCount grid) st1 ∧
      loopMeasure (cellCount grid) st1 ≤ loopMeasure (cellCount grid) st ∧
      (st1.openSet = st.openSet → st1 = st) := by
  have hcur32 : PosInt32 cur := hcur.posInt32 hfit hstart
  have key := relaxDirs_induct grid grid.length (width grid) goal cur
    (fun rest s => (∀ d ∈ rest, d ∈ dirs) ∧ AStarInv grid start s ∧ Reached grid start s cur ∧
      TermInv (cellCount grid) s ∧
      loopMeasure (cellCount grid) s ≤ loopMeasure (cellCount grid) st ∧
      (s.openSet = st.openSet → s = st) ∧ st.openSet.length ≤ s.openSet.length) ?_ dirs st
    ⟨fun _ h => h, inv, hcur, hterm, le_refl _, fun _ => rfl, le_refl _⟩
  · obtain ⟨st1, h1, _, h2, _, h3, h4, h5, _⟩ := key
    exact ⟨st1, h1, h2, h3, h4, h5⟩
  · intro d rest s ⟨hsub, hinv, hc, ht, hm, hsame, hlen⟩
    have hd : d ∈ dirs := hsub d (List.mem_cons_self _ _)
    have hsub2 : ∀ e ∈ rest, e ∈ dirs := fun e he => hsub e (List.mem_cons_of_mem _ he)
    obtain ⟨gc, hg⟩ := hc.gdef hinv
    rcases relax_spec hrect hfit goal hcur32 hd hg with ⟨_, h⟩ | ⟨_, _, h⟩ | ⟨hfree, hlt, h⟩
    · exact ⟨s, h, hsub2, hinv, hc, ht, hm, hsame, hlen⟩
    · exact ⟨s, h, hsub2, hinv, hc, ht, hm, hsame, hlen⟩
    · refine ⟨_, h, hsub2, hinv.relaxedInv hrect hfit goal hc hg hfree (adj_stepBy hd) hlt,
        hc.afterRelax goal cur _ _, ?_, ?_, ?_, ?_⟩
      · exact termInv_relaxed goal cur _ ht hg (key_lt_cellCount hrect hfit hfree.1).1
          (key_lt_cellCount hrect hfit hfree.1).2 hlt
      · have := loopMeasure_relaxed goal cur (stepBy cur d) ht hg (hinv.gnonneg _ _ hg)
          (key_lt_cellCount hrect hfit hfree.1).1 (key_lt_cellCount hrect hfit hfree.1).2 hlt
        omega
      · intro hcon
        have := congrArg List.length hcon
        simp only [relaxedState, List.length_append, List.length_singleton] at this
        omega
      · simp only [relaxedState, List.length_append, List.length_singleton]
        omega

theorem popTop_eq_none {c : Nat} {l : List Node} (h : popTop c l = none) : l = [] := by
  by_contra hne
  obtain ⟨n, rest, hn⟩ := popTop_isSome c hne
  rw [h] at hn
  exact absurd hn (by simp)

/-- Induction principle over the frontier loop: a state property `I` that is kept by one
iteration gives a property `Q` of the result. -/
theorem aStarLoop_induct {grid : Grid} {rows cols : Int} {start goal : GridPos} {walkFuel : Nat}
    (I : AStarState → Prop) (Q : List GridPos → Prop)
    (hempty : ∀ st, I st → st.openSet = [] → Q [])
    (hgoal : ∀ st cur l, I st → cur ∈ st.openSet → (∀ m ∈ st.openSet, cur.fScore ≤ m.fScore) →
      cur.pos = goal → walkBack cols start st.cameFrom walkFuel goal = some l → Q l.reverse)
    (hstep : ∀ st cur st1, I st → cur ∈ st.openSet →
      (∀ m ∈ st.openSet, cur.fScore ≤ m.fScore) → cur.pos ≠ goal →
      relaxDirs grid rows cols goal cur.pos dirs { st with openSet := st.openSet.erase cur }
        = some st1 → I st1) :
    ∀ (fuel : Nat) (tie : Nat → Nat) (st : AStarState) (path : List GridPos), I st →
      aStarLoop grid rows cols start goal walkFuel fuel tie st = some path → Q path := by
  intro fuel
  induction fuel with
  | zero =>
    intro tie st path hI h
    rw [aStarLoop] at h
    cases hpop : popTop (tie 0) st.openSet with
    | none =>
      rw [hpop] at h
      simp only [Option.some.injEq] at h
      subst h
      exact hempty st hI (popTop_eq_none hpop)
    | some res =>
      obtain ⟨cur, rest⟩ := res
      rw [hpop] at h
      obtain ⟨hmem, hmin, _⟩ := popTop_spec hpop
      simp only at h
      split at h
      · rename_i hg
        cases hw : walkBack cols start st.cameFrom walkFuel goal with
        | none => rw [hw] at h; exact absurd h (by simp)
        | some l =>
          rw [hw] at h
          simp only [Option.map_some', Option.some.injEq] at h
          subst h
          exact hgoal st cur l hI hmem hmin hg hw
      · exact absurd h (by simp)
  | succ fuel ih =>
    intro tie st path hI h
    rw [aStarLoop] at h
    cases hpop : popTop (tie 0) st.openSet with
    | none =>
      rw [hpop] at h
      simp only [Option.some.injEq] at h
      subst h
      exact hempty st hI (popTop_eq_none hpop)
    | some res =>
      obtain ⟨cur, rest⟩ := res
      rw [hpop] at h
      obtain ⟨hmem, hmin, hrest⟩ := popTop_spec hpop
      simp only at h
      split at h
      · rename_i hg
        cases hw : walkBack cols start st.cameFrom walkFuel goal with
        | none => rw [hw] at h; exact absurd h (by simp)
        | some l =>
          rw [hw] at h
          simp only [Option.map_some', Option.some.injEq] at h
          subst h
          exact hgoal st cur l hI hmem hmin hg hw
      · rename_i hg
        subst hrest
        cases hr : relaxDirs grid rows cols goal cur.pos dirs
            { st with openSet := st.openSet.erase cur } with
        | none => rw [hr] at h; exact absurd h (by simp)
        | some st1 =>
          rw [hr] at h
          exact ih _ st1 path (hstep st cur st1 hI hmem hmin hg hr) h

theorem aStarLoop_total {grid : Grid} (hrect : Rect grid) (hfit : Fits32 grid)
    {start : GridPos} (hstart : PosInt32 start) (goal : GridPos) {walkFuel : Nat}
    (hwalk : cellCount grid ≤ walkFuel) :
    ∀ (fuel : Nat) (tie : Nat → Nat) (st : AStarState), AStarInv grid start st →
      TermInv (cellCount grid) st → loopMeasure (cellCount grid) st ≤ fuel →
      ∃ path, aStarLoop grid grid.length (width grid) start goal walkFuel fuel tie st
        = some path := by
  have hwalkOK : ∀ (st : AStarState) (cur : Node), AStarInv grid start st →
      TermInv (cellCount grid) st → cur ∈ st.openSet → cur.pos = goal →
      ∃ l, walkBack (width grid) start st.cameFrom walkFuel goal = some l := by
    intro st cur inv hterm hmem hg
    have hr : Reached grid start st goal := hg ▸ inv.opn cur hmem
    obtain ⟨gg, hgg⟩ := hr.gdef inv
    have h1 := hterm _ _ hgg
    have h2 := gDefined_le (cellCount grid) st
    exact walkBack_total inv walkFuel goal gg hr hgg (by
      have : ((gDefined (cellCount grid) st : Nat) : Int) ≤ (walkFuel : Int) := by
        exact_mod_cast le_trans h2 hwalk
      omega)
  intro fuel
  induction fuel with
  | zero =>
    intro tie st inv hterm hm
    rw [aStarLoop]
    cases hpop : popTop (tie 0) st.openSet with
    | none => exact ⟨[], rfl⟩
    | some res =>
      obtain ⟨cur, rest⟩ := res
      obtain ⟨hmem, _, _⟩ := popTop_spec hpop
      have hpos := List.length_pos_of_mem hmem
      unfold loopMeasure at hm
      omega
  | succ fuel ih =>
    intro tie st inv hterm hm
    rw [aStarLoop]
    cases hpop : popTop (tie 0) st.openSet with
    | none => exact ⟨[], rfl⟩
    | some res =>
      obtain ⟨cur, rest⟩ := res
      obtain ⟨hmem, _, hrest⟩ := popTop_spec hpop
      subst hrest
      simp only
      by_cases hg : cur.pos = goal
      · obtain ⟨l, hl⟩ := hwalkOK st cur inv hterm hmem hg
        exact ⟨l.reverse, by rw [if_pos hg, hl]; rfl⟩
      · rw [if_neg hg]
        have inv2 : AStarInv grid start { st with openSet := st.openSet.erase cur } :=
          inv.popped (fun n hn => List.mem_of_mem_erase hn)
        have hterm2 : TermInv (cellCount grid) { st with openSet := st.openSet.erase cur } :=
          hterm
        have hcur : Reached grid start { st with openSet := st.openSet.erase cur } cur.pos :=
          inv.opn cur hmem
        obtain ⟨st1, h1, h2, h3, h4, _⟩ :=
          relaxDirs_inv hrect hfit hstart goal inv2 hcur hterm2
        rw [h1]
        simp only
        refine ih _ st1 h2 h3 ?_
        have hlen : (st.openSet.erase cur).length + 1 = st.openSet.length := by
          rw [List.length_erase_of_mem hmem]
          have := List.length_pos_of_mem hmem
          omega
        unfold loopMeasure gPotential at h4 hm ⊢
        simp only at h4
        omega

/-! ## `aStarPath`: Manhattan distance -/

theorem manhattan_self (a : GridPos) : manhattan a a = 0 := by
  simp [manhattan]

theorem manhattan_nonneg (a b : GridPos) : 0 ≤ manhattan a b := by
  unfold manhattan
  have := abs_nonneg (a.x - b.x)
  have := abs_nonneg (a.y - b.y)
  omega

theorem manhattan_adj {v w : GridPos} (goal : GridPos) (h : Adj v w) :
    manhattan v goal ≤ manhattan w goal + 1 := by
  unfold manhattan
  unfold Adj at h
  rcases abs_cases (v.x - goal.x) with ⟨h1, _⟩ | ⟨h1, _⟩ <;>
  rcases abs_cases (v.y - goal.y) with ⟨h2, _⟩ | ⟨h2, _⟩ <;>
  rcases abs_cases (w.x - goal.x) with ⟨h3, _⟩ | ⟨h3, _⟩ <;>
  rcases abs_cases (w.y - goal.y) with ⟨h4, _⟩ | ⟨h4, _⟩ <;>
  rw [h1, h2, h3, h4] <;> omega

theorem manhattan_le_chain (goal : GridPos) :
    ∀ (l : List GridPos) (v : GridPos), List.Chain' Adj (v :: l) →
      (v :: l).getLast? = some goal → manhattan v goal ≤ l.length := by
  intro l
  induction l with
  | nil =>
    intro v _ hlast
    simp only [List.getLast?_singleton, Option.some.injEq] at hlast
    subst hlast
    simp [manhattan_self]
  | cons w l ih =>
    intro v hch hlast
    rw [List.chain'_cons] at hch
    rw [List.getLast?_cons_cons] at hlast
    have h1 := ih w hch.2 hlast
    have h2 := manhattan_adj goal hch.1
    simp only [List.length_cons, Nat.cast_add, Nat.cast_one]
    omega

theorem dims_sum_le {grid : Grid} (hrect : Rect grid) (hfit : Fits32 grid)
    (hr : 0 < grid.length) (hc : 0 < width grid) :
    grid.length + width grid ≤ 2147483648 := by
  have h1 := cellCount_of_rect hrect
  have h2 := hfit.2
  rw [h1] at h2
  have h3 : (grid.length - 1) * (width grid - 1) + grid.length + width grid
      = grid.length * width grid + 1 := by
    obtain ⟨a, ha⟩ : ∃ a, grid.length = a + 1 := ⟨grid.length - 1, by omega⟩
    obtain ⟨b, hb⟩ : ∃ b, width grid = b + 1 := ⟨width grid - 1, by omega⟩
    rw [ha, hb]
    simp only [Nat.add_sub_cancel]
    ring
  omega

theorem heuristic_eq {grid : Grid} (hrect : Rect grid) (hfit : Fits32 grid) {a b : GridPos}
    (ha : InBounds grid a) (hb : InBounds grid b) : heuristic a b = manhattan a b := by
  obtain ⟨ax0, ax1, ay0, ay1⟩ := ha
  obtain ⟨bx0, bx1, by0, by1⟩ := hb
  have hsum := dims_sum_le hrect hfit (by omega) (by omega)
  have hx : toInt32 (a.x - b.x) = a.x - b.x := toInt32_of_lt _ (by omega) (by omega)
  have hy : toInt32 (a.y - b.y) = a.y - b.y := toInt32_of_lt _ (by omega) (by omega)
  have hax : absInt (a.x - b.x) = |a.x - b.x| := by
    unfold absInt
    rcases abs_cases (a.x - b.x) with ⟨h1, h2⟩ | ⟨h1, h2⟩
    · rw [h1, if_neg (by omega)]
    · rw [h1, if_pos h2]
      exact toInt32_of_lt _ (by omega) (by omega)
  have hay : absInt (a.y - b.y) = |a.y - b.y| := by
    unfold absInt
    rcases abs_cases (a.y - b.y) with ⟨h1, h2⟩ | ⟨h1, h2⟩
    · rw [h1, if_neg (by omega)]
    · rw [h1, if_pos h2]
      exact toInt32_of_lt _ (by omega) (by omega)
  unfold heuristic manhattan
  rw [hx, hy, hax, hay]
  rcases abs_cases (a.x - b.x) with ⟨h1, _⟩ | ⟨h1, _⟩ <;>
  rcases abs_cases (a.y - b.y) with ⟨h2, _⟩ | ⟨h2, _⟩ <;>
  rw [h1, h2] <;> exact toInt32_of_lt _ (by omega) (by omega)

/-! ## `aStarPath`: the invariant behind optimality -/

theorem AStarOpt.initialOpt {grid : Grid} (hrect : Rect grid) (hfit : Fits32 grid)
    {start goal : GridPos} (hs : InBounds grid start) (hgl : InBounds grid goal) :
    AStarOpt grid start goal (fun _ => False)
      { openSet := [⟨start, heuristic start goal⟩]
        cameFrom := fun _ => none
        gScore := setKey (fun _ => none) (key (width grid) start) 0 } := by
  have hh := heuristic_eq hrect hfit hs hgl
  refine ⟨?_, ?_, ?_⟩
  · intro n hn
    rw [List.mem_singleton] at hn
    subst hn
    refine ⟨0, by simp [setKey], ?_⟩
    simp only [hh]
    omega
  · intro g h
    simp only [setKey] at h
    split at h
    · rename_i hk
      have := key_inj hrect hfit hgl hs hk
      exact ⟨_, List.mem_singleton.2 rfl, this.symm⟩
    · exact absurd h (by simp)
  · intro v g _ hv h
    left
    simp only [setKey] at h
    split at h
    · rename_i hk
      have hvb : InBounds grid v := by
        rcases hv with h1 | h1
        · rw [h1]; exact hs
        · exact h1.1
      have hve := key_inj hrect hfit hvb hs hk
      simp only [Option.some.injEq] at h
      subst h; subst hve
      rw [List.mem_singleton, hh]
      simp
    · exact absurd h (by simp)

theorem AStarOpt.poppedOpt {grid : Grid} {start goal : GridPos} {st : AStarState}
    (opt : AStarOpt grid start goal (fun _ => False) st) {cur : Node}
    (hne : cur.pos ≠ goal) :
    AStarOpt grid start goal (fun v => v = cur.pos)
      { st with openSet := st.openSet.erase cur } := by
  refine ⟨?_, ?_, ?_⟩
  · intro n hn
    exact opt.fbound n (List.mem_of_mem_erase hn)
  · intro g h
    obtain ⟨n, hn, hp⟩ := opt.goalOpen g h
    refine ⟨n, ?_, hp⟩
    have hnc : n ≠ cur := by
      intro hcon
      rw [hcon] at hp
      exact hne hp
    exact (List.mem_erase_of_ne hnc).2 hn
  · intro v g hskip hv h
    rcases opt.closed v g (fun hf => hf) hv h with h1 | h1
    · left
      have hnc : (⟨v, g + manhattan v goal⟩ : Node) ≠ cur := by
        intro hcon
        apply hskip
        rw [← hcon]
      exact (List.mem_erase_of_ne hnc).2 h1
    · exact Or.inr h1

theorem AStarOpt.relaxedOpt {grid : Grid} (hrect : Rect grid) (hfit : Fits32 grid)
    {start goal : GridPos} (hs : InBounds grid start) (hgl : InBounds grid goal)
    {st : AStarState} {skip : GridPos → Prop}
    (opt : AStarOpt grid start goal skip st) {cur nb : GridPos} {gc : Int}
    (hfree : Free grid nb)
    (hlt : ∀ gN, st.gScore (key (width grid) nb) = some gN → gc + 1 < gN) :
    AStarOpt grid start goal skip (relaxedState (width grid) goal cur nb (gc + 1) st) := by
  have hh := heuristic_eq hrect hfit hfree.1 hgl
  refine ⟨?_, ?_, ?_⟩
  · intro n hn
    simp only [relaxedState, List.mem_append, List.mem_singleton] at hn
    rcases hn with h | h
    · obtain ⟨g, hg1, hg2⟩ := opt.fbound n h
      by_cases hk : key (width grid) n.pos = key (width grid) nb
      · refine ⟨gc + 1, by simp [relaxedState, setKey, hk], ?_⟩
        have := hlt g (by rw [← hk]; exact hg1)
        omega
      · exact ⟨g, by simp only [relaxedState]; rw [setKey_other _ _ hk]; exact hg1, hg2⟩
    · subst h
      refine ⟨gc + 1, by simp [relaxedState, setKey], ?_⟩
      simp only [hh]
      omega
  · intro g h
    by_cases hk : key (width grid) goal = key (width grid) nb
    · have hge := key_inj hrect hfit hgl hfree.1 hk
      refine ⟨⟨nb, gc + 1 + heuristic nb goal⟩, ?_, hge.symm⟩
      simp [relaxedState]
    · simp only [relaxedState] at h
      rw [setKey_other _ _ hk] at h
      obtain ⟨n, hn, hp⟩ := opt.goalOpen g h
      exact ⟨n, by simp only [relaxedState]; exact List.mem_append_left _ hn, hp⟩
  · intro v g hskip hv h
    have hvb : InBounds grid v := by
      rcases hv with h1 | h1
      · rw [h1]; exact hs
      · exact h1.1
    by_cases hk : key (width grid) v = key (width grid) nb
    · have hve := key_inj hrect hfit hvb hfree.1 hk
      subst hve
      left
      simp only [relaxedState, setKey_same, Option.some.injEq] at h
      subst h
      simp [relaxedState, hh]
    · simp only [relaxedState] at h
      rw [setKey_other _ _ hk] at h
      rcases opt.closed v g hskip hv h with h1 | h1
      · left
        simp only [relaxedState]
        exact List.mem_append_left _ h1
      · right
        intro w hadj hw
        obtain ⟨gw, hgw, hle⟩ := h1 w hadj hw
        by_cases hkw : key (width grid) w = key (width grid) nb
        · refine ⟨gc + 1, by simp [relaxedState, setKey, hkw], ?_⟩
          have := hlt gw (by rw [← hkw]; exact hgw)
          omega
        · exact ⟨gw, by simp only [relaxedState]; rw [setKey_other _ _ hkw]; exact hgw, hle⟩

theorem relaxDirs_opt {grid : Grid} (hrect : Rect grid) (hfit : Fits32 grid)
    {start goal : GridPos} (hs : InBounds grid start) (hgl : InBounds grid goal)
    {cur : GridPos} {st : AStarState} (inv : AStarInv grid start st)
    (hcur : Reached grid start st cur)
    (opt : AStarOpt grid start goal (fun v => v = cur) st) (st1 : AStarState)
    (hres : relaxDirs grid grid.length (width grid) goal cur dirs st = some st1) :
    AStarOpt grid start goal (fun _ => False) st1 := by
  have hstart : PosInt32 start := posInt32_of_inBounds hfit.1 hs
  have hcur32 : PosInt32 cur := hcur.posInt32 hfit hstart
  obtain ⟨gc, hgc⟩ := hcur.gdef inv
  have key := relaxDirs_induct grid grid.length (width grid) goal cur
    (fun rest s => (∀ d ∈ rest, d ∈ dirs) ∧ AStarInv grid start s ∧ Reached grid start s cur ∧
      s.gScore (key (width grid) cur) = some gc ∧
      AStarOpt grid start goal (fun v => v = cur) s ∧
      (∀ d ∈ dirs, d ∉ rest → Free grid (stepBy cur d) →
        ∃ gw, s.gScore (key (width grid) (stepBy cur d)) = some gw ∧ gw ≤ gc + 1)) ?_ dirs st
    ⟨fun _ h => h, inv, hcur, hgc, opt, fun d hd hnd => absurd hd hnd⟩
  · obtain ⟨st2, h1, _, _, _, hg2, hopt, hclosed⟩ := key
    rw [hres] at h1
    simp only [Option.some.injEq] at h1
    subst h1
    refine ⟨hopt.fbound, hopt.goalOpen, ?_⟩
    intro v g _ hv hg
    by_cases hvc : v = cur
    · subst hvc
      right
      rw [hg2] at hg
      simp only [Option.some.injEq] at hg
      subst hg
      intro w hadj hw
      obtain ⟨d, hd, hwd⟩ := adj_iff_stepBy.1 hadj
      subst hwd
      exact hclosed d hd (List.not_mem_nil _) hw
    · exact hopt.closed v g hvc hv hg
  · intro d rest s ⟨hsub, hinv, hc, hg, hopt, hclosed⟩
    have hd : d ∈ dirs := hsub d (List.mem_cons_self _ _)
    have hsub2 : ∀ e ∈ rest, e ∈ dirs := fun e he => hsub e (List.mem_cons_of_mem _ he)
    rcases relax_spec hrect hfit goal hcur32 hd hg with ⟨hnf, h⟩ | ⟨_, hle, h⟩ | ⟨hfree, hlt, h⟩
    · refine ⟨s, h, hsub2, hinv, hc, hg, hopt, ?_⟩
      intro e he hne hfe
      by_cases hed : e = d
      · subst hed
        exact absurd hfe hnf
      · exact hclosed e he (by simp [hed, hne]) hfe
    · refine ⟨s, h, hsub2, hinv, hc, hg, hopt, ?_⟩
      intro e he hne hfe
      by_cases hed : e = d
      · subst hed
        exact hle
      · exact hclosed e he (by simp [hed, hne]) hfe
    · obtain ⟨_, hkc⟩ := relaxed_keys hrect hfit hinv hc hg hfree (adj_stepBy hd) hlt
      refine ⟨_, h, hsub2, hinv.relaxedInv hrect hfit goal hc hg hfree (adj_stepBy hd) hlt,
        hc.afterRelax goal cur _ _, ?_, hopt.relaxedOpt hrect hfit hs hgl hfree hlt, ?_⟩
      · simp only [relaxedState]
        rw [setKey_other _ _ (Ne.symm hkc)]
        exact hg
      · intro e he hne hfe
        by_cases hk : key (width grid) (stepBy cur e) = key (width grid) (stepBy cur d)
        · exact ⟨gc + 1, by simp [relaxedState, setKey, hk], le_refl _⟩
        · have hed : e ≠ d := by
            intro hcon
            rw [hcon] at hk
            exact hk rfl
          obtain ⟨gw, hgw, hle⟩ := hclosed e he (by simp [hed, hne]) hfe
          exact ⟨gw, by simp only [relaxedState]; rw [setKey_other _ _ hk]; exact hgw, hle⟩

/-- Along a valid continuation `v :: l` towards the goal, either an open entry has an
`fScore` of at most `j + l.length`, or the goal already has a cost of at most that. -/
theorem opt_along_path {grid : Grid} {start goal : GridPos} {st : AStarState}
    (opt : AStarOpt grid start goal (fun _ => False) st) :
    ∀ (l : List GridPos) (v : GridPos) (j gv : Int), List.Chain' Adj (v :: l) →
      (∀ p ∈ l, Free grid p) → (v = start ∨ Free grid v) →
      st.gScore (key (width grid) v) = some gv → gv ≤ j →
      (v :: l).getLast? = some goal →
      (∃ n ∈ st.openSet, n.fScore ≤ j + l.length) ∨
      (∃ gg, st.gScore (key (width grid) goal) = some gg ∧ gg ≤ j + l.length) := by
  intro l
  induction l with
  | nil =>
    intro v j gv _ _ _ hg hle hlast
    simp only [List.getLast?_singleton, Option.some.injEq] at hlast
    subst hlast
    right
    exact ⟨gv, hg, by simp only [List.length_nil, Nat.cast_zero]; omega⟩
  | cons w l ih =>
    intro v j gv hch hfree hv hg hle hlast
    have hch2 := hch
    rw [List.chain'_cons] at hch2
    have hlast2 := hlast
    rw [List.getLast?_cons_cons] at hlast2
    have hdist := manhattan_le_chain goal (w :: l) v hch hlast
    simp only [List.length_cons, Nat.cast_add, Nat.cast_one] at hdist ⊢
    rcases opt.closed v gv (fun h => h) hv hg with h1 | h1
    · left
      exact ⟨_, h1, by simp only; omega⟩
    · obtain ⟨gw, hgw, hlw⟩ := h1 w hch2.1 (hfree w (List.mem_cons_self _ _))
      rcases ih w (j + 1) gw hch2.2 (fun p hp => hfree p (List.mem_cons_of_mem _ hp))
          (Or.inr (hfree w (List.mem_cons_self _ _))) hgw (by omega) hlast2 with h2 | h2
      · left
        obtain ⟨n, hn, hf⟩ := h2
        exact ⟨n, hn, by omega⟩
      · right
        obtain ⟨gg, hgg, hf⟩ := h2
        exact ⟨gg, hgg, by omega⟩

theorem validPath_cons {grid : Grid} {start goal : GridPos} {p : List GridPos}
    (h : ValidPath grid start goal p) : ∃ l, p = start :: l := by
  obtain ⟨h1, _, _, _⟩ := h
  cases p with
  | nil => exact absurd h1 (by simp)
  | cons a l =>
    simp only [List.head?_cons, Option.some.injEq] at h1
    exact ⟨l, by rw [h1]⟩

/-! ## `aStarPath`: results of the frontier loop -/

theorem aStarLoop_valid {grid : Grid} (hrect : Rect grid) (hfit : Fits32 grid)
    {start : GridPos} (hstart : PosInt32 start) (goal : GridPos) (walkFuel : Nat) :
    ∀ (fuel : Nat) (tie : Nat → Nat) (st : AStarState) (path : List GridPos),
      AStarInv grid start st ∧ TermInv (cellCount grid) st →
      aStarLoop grid grid.length (width grid) start goal walkFuel fuel tie st = some path →
      path ≠ [] → ValidPath grid start goal path := by
  refine aStarLoop_induct (fun st => AStarInv grid start st ∧ TermInv (cellCount grid) st)
    (fun path => path ≠ [] → ValidPath grid start goal path) ?_ ?_ ?_
  · intro st _ _ hne
    exact absurd rfl hne
  · intro st cur l ⟨inv, _⟩ hmem _ hg hw _
    have hr : Reached grid start st goal := hg ▸ inv.opn cur hmem
    obtain ⟨gg, hgg⟩ := hr.gdef inv
    obtain ⟨h1, h2, h3, h4, _⟩ := walkBack_spec inv walkFuel goal l gg hr hgg hw
    exact validPath_of_walk h1 h2 h3 h4
  · intro st cur st1 ⟨inv, hterm⟩ hmem _ _ hres
    have inv2 : AStarInv grid start { st with openSet := st.openSet.erase cur } :=
      inv.popped (fun n hn => List.mem_of_mem_erase hn)
    obtain ⟨st2, h1, h2, h3, _⟩ :=
      relaxDirs_inv hrect hfit hstart goal inv2 (inv.opn cur hmem) hterm
    rw [hres] at h1
    simp only [Option.some.injEq] at h1
    subst h1
    exact ⟨h2, h3⟩

theorem aStarLoop_optimal {grid : Grid} (hrect : Rect grid) (hfit : Fits32 grid)
    {start goal : GridPos} (hs : InBounds grid start) (hgl : InBounds grid goal)
    (walkFuel : Nat) :
    ∀ (fuel : Nat) (tie : Nat → Nat) (st : AStarState) (path : List GridPos),
      AStarInv grid start st ∧ TermInv (cellCount grid) st ∧
        AStarOpt grid start goal (fun _ => False) st →
      aStarLoop grid grid.length (width grid) start goal walkFuel fuel tie st = some path →
      (path = [] → ¬ ∃ p, ValidPath grid start goal p) ∧
      (path ≠ [] → ∀ other, ValidPath grid start goal other → path.length ≤ other.length) := by
  have hstart : PosInt32 start := posInt32_of_inBounds hfit.1 hs
  refine aStarLoop_induct (fun st => AStarInv grid start st ∧ TermInv (cellCount grid) st ∧
      AStarOpt grid start goal (fun _ => False) st)
    (fun path => (path = [] → ¬ ∃ p, ValidPath grid start goal p) ∧
      (path ≠ [] → ∀ other, ValidPath grid start goal other → path.length ≤ other.length))
    ?_ ?_ ?_
  · intro st ⟨inv, _, opt⟩ hopen
    refine ⟨fun _ => ?_, fun h => absurd rfl h⟩
    rintro ⟨p, hp⟩
    obtain ⟨l, hl⟩ := validPath_cons hp
    subst hl
    obtain ⟨_, hlast, hch, hfree⟩ := hp
    rcases opt_along_path opt l start 0 0 hch hfree (Or.inl rfl) inv.gstart (le_refl _) hlast
      with ⟨n, hn, _⟩ | ⟨gg, hgg, _⟩
    · rw [hopen] at hn
      exact absurd hn (List.not_mem_nil _)
    · obtain ⟨n, hn, _⟩ := opt.goalOpen gg hgg
      rw [hopen] at hn
      exact absurd hn (List.not_mem_nil _)
  · intro st cur l ⟨inv, _, opt⟩ hmem hmin hg hw
    have hr : Reached grid start st goal := hg ▸ inv.opn cur hmem
    obtain ⟨gg, hgg⟩ := hr.gdef inv
    obtain ⟨h1, _, _, _, h5⟩ := walkBack_spec inv walkFuel goal l gg hr hgg hw
    refine ⟨fun hnil => ?_, fun _ other hother => ?_⟩
    · rw [List.reverse_eq_nil_iff] at hnil
      rw [hnil] at h1
      exact absurd h1 (by simp)
    · obtain ⟨l2, hl2⟩ := validPath_cons hother
      subst hl2
      obtain ⟨_, hlast, hch, hfree⟩ := hother
      obtain ⟨gcur, hgcur, hfcur⟩ := opt.fbound cur hmem
      rw [hg, hgg] at hgcur
      simp only [Option.some.injEq] at hgcur
      subst hgcur
      rw [hg, manhattan_self] at hfcur
      have hbound : gg ≤ l2.length := by
        rcases opt_along_path opt l2 start 0 0 hch hfree (Or.inl rfl) inv.gstart (le_refl _)
          hlast with ⟨n, hn, hf⟩ | ⟨gg2, hgg2, hf⟩
        · have := hmin n hn
          omega
        · rw [hgg] at hgg2
          simp only [Option.some.injEq] at hgg2
          omega
      simp only [List.length_reverse, List.length_cons]
      omega
  · intro st cur st1 ⟨inv, hterm, opt⟩ hmem _ hne hres
    have inv2 : AStarInv grid start { st with openSet := st.openSet.erase cur } :=
      inv.popped (fun n hn => List.mem_of_mem_erase hn)
    have hcur : Reached grid start { st with openSet := st.openSet.erase cur } cur.pos :=
      inv.opn cur hmem
    obtain ⟨st2, h1, h2, h3, _⟩ := relaxDirs_inv hrect hfit hstart goal inv2 hcur hterm
    have hopt := relaxDirs_opt hrect hfit hs hgl inv2 hcur (opt.poppedOpt hne) st1 hres
    rw [hres] at h1
    simp only [Option.some.injEq] at h1
    subst h1
    exact ⟨h2, h3, hopt⟩

/-! ## `aStarPath`: the function -/

theorem aStarPath_eq {grid : Grid} (hfit : Fits32 grid) (hne : ¬ (grid = [] ∨ width grid = 0))
    (fuel : Nat) (tie : Nat → Nat) (start goal : GridPos) :
    aStarPath fuel tie grid start goal
      = aStarLoop grid grid.length (width grid) start goal fuel fuel tie
          { openSet := [⟨start, heuristic start goal⟩]
            cameFrom := fun _ => none
            gScore := setKey (fun _ => none) (key (width grid) start) 0 } := by
  have hrows : toInt32 (grid.length : Int) = grid.length :=
    toInt32_of_lt _ (by omega) (by have := hfit.1.1; omega)
  have hcols : toInt32 (width grid : Int) = width grid :=
    toInt32_of_lt _ (by omega) (by have := hfit.1.2; omega)
  unfold aStarPath
  rw [if_neg hne]
  simp only [hrows, hcols]

theorem aStarPath_of_empty {grid : Grid} (hne : grid = [] ∨ width grid = 0)
    (fuel : Nat) (tie : Nat → Nat) (start goal : GridPos) :
    aStarPath fuel tie grid start goal = some [] := by
  unfold aStarPath
  rw [if_pos hne]

theorem not_empty_of_inBounds {grid : Grid} {p : GridPos} (hp : InBounds grid p) :
    ¬ (grid = [] ∨ width grid = 0) := by
  obtain ⟨hx0, hx1, hy0, hy1⟩ := hp
  rintro (h | h)
  · rw [h] at hy1; simp at hy1; omega
  · rw [h] at hx1; simp at hx1; omega

theorem aStarPath_total {grid : Grid} (hrect : Rect grid) (hfit : Fits32 grid)
    {start : GridPos} (hstart : PosInt32 start) (goal : GridPos) (tie : Nat → Nat)
    {fuel : Nat} (hfuel : aStarFuel grid ≤ fuel) :
    ∃ path, aStarPath fuel tie grid start goal = some path := by
  by_cases hne : grid = [] ∨ width grid = 0
  · exact ⟨[], aStarPath_of_empty hne fuel tie start goal⟩
  · rw [aStarPath_eq hfit hne]
    have hm := loopMeasure_init (cellCount grid) ⟨start, heuristic start goal⟩
      (fun _ => none) (key (width grid) start)
    unfold aStarFuel at hfuel
    refine aStarLoop_total hrect hfit hstart goal ?_ fuel tie _
      (AStarInv.initial grid start goal) (termInv_init _ _ _ _) (by omega)
    have : cellCount grid ≤ cellCount grid * (cellCount grid + 2) :=
      Nat.le_mul_of_pos_right _ (by omega)
    omega

/-! ## `aStarPath`: grids without obstacles -/

theorem cellAt_mem {grid : Grid} {x y : Int} {c : Int} (h : cellAt grid x y = some c) :
    ∃ row ∈ grid, c ∈ row := by
  obtain ⟨_, _, row, hrow, hc⟩ := cellAt_eq_some h
  exact ⟨row, List.getElem?_mem hrow, List.getElem?_mem hc⟩

theorem free_of_all_zero {grid : Grid} (hrect : Rect grid)
    (hzero : ∀ row ∈ grid, ∀ c ∈ row, c = 0) {p : GridPos} (hp : InBounds grid p) :
    Free grid p := by
  obtain ⟨c, hc⟩ := cellAt_isSome_of_inBounds hrect hp
  obtain ⟨row, hrow, hmem⟩ := cellAt_mem hc
  rw [hzero row hrow c hmem] at hc
  exact ⟨hp, hc⟩

theorem manhattan_eq_zero {a b : GridPos} (h : manhattan a b = 0) : a = b := by
  unfold manhattan at h
  have h1 := abs_nonneg (a.x - b.x)
  have h2 := abs_nonneg (a.y - b.y)
  have h3 : |a.x - b.x| = 0 := by omega
  have h4 : |a.y - b.y| = 0 := by omega
  rw [abs_eq_zero] at h3 h4
  cases a; cases b
  simp only [GridPos.mk.injEq]
  simp only at h3 h4
  constructor <;> omega

/-- A cell one step closer to the goal, between the cell and the goal. -/
theorem exists_closer {grid : Grid} {s goal : GridPos} (hs : InBounds grid s)
    (hg : InBounds grid goal) {n : Nat} (hn : manhattan s goal = (n : Int) + 1) :
    ∃ t, Adj s t ∧ InBounds grid t ∧ manhattan t goal = n := by
  obtain ⟨sx0, sx1, sy0, sy1⟩ := hs
  obtain ⟨gx0, gx1, gy0, gy1⟩ := hg
  unfold manhattan at hn
  by_cases hx : s.x < goal.x
  · refine ⟨⟨s.x + 1, s.y⟩, by simp [Adj], by unfold InBounds; simp only; omega, ?_⟩
    unfold manhattan
    simp only
    rcases abs_cases (s.x - goal.x) with ⟨h1, _⟩ | ⟨h1, _⟩ <;>
    rcases abs_cases (s.x + 1 - goal.x) with ⟨h2, _⟩ | ⟨h2, _⟩ <;>
    rw [h1] at hn <;> rw [h2] <;> omega
  by_cases hx2 : goal.x < s.x
  · refine ⟨⟨s.x - 1, s.y⟩, by simp [Adj], by unfold InBounds; simp only; omega, ?_⟩
    unfold manhattan
    simp only
    rcases abs_cases (s.x - goal.x) with ⟨h1, _⟩ | ⟨h1, _⟩ <;>
    rcases abs_cases (s.x - 1 - goal.x) with ⟨h2, _⟩ | ⟨h2, _⟩ <;>
    rw [h1] at hn <;> rw [h2] <;> omega
  have hxe : s.x - goal.x = 0 := by omega
  rw [hxe, abs_zero, zero_add] at hn
  have hyne : s.y ≠ goal.y := by
    intro h
    rw [h, sub_self, abs_zero] at hn
    omega
  by_cases hy : s.y < goal.y
  · refine ⟨⟨s.x, s.y + 1⟩, by simp [Adj], by unfold InBounds; simp only; omega, ?_⟩
    unfold manhattan
    simp only
    rw [hxe, abs_zero, zero_add]
    rcases abs_cases (s.y - goal.y) with ⟨h1, _⟩ | ⟨h1, _⟩ <;>
    rcases abs_cases (s.y + 1 - goal.y) with ⟨h2, _⟩ | ⟨h2, _⟩ <;>
    rw [h1] at hn <;> rw [h2] <;> omega
  · refine ⟨⟨s.x, s.y - 1⟩, by simp [Adj], by unfold InBounds; simp only; omega, ?_⟩
    unfold manhattan
    simp only
    rw [hxe, abs_zero, zero_add]
    rcases abs_cases (s.y - goal.y) with ⟨h1, _⟩ | ⟨h1, _⟩ <;>
    rcases abs_cases (s.y - 1 - goal.y) with ⟨h2, _⟩ | ⟨h2, _⟩ <;>
    rw [h1] at hn <;> rw [h2] <;> omega

theorem exists_manhattan_path {grid : Grid} (hrect : Rect grid)
    (hzero : ∀ row ∈ grid, ∀ c ∈ row, c = 0) {goal : GridPos} (hg : InBounds grid goal) :
    ∀ (n : Nat) (s : GridPos), InBounds grid s → manhattan s goal = n →
      ∃ p, ValidPath grid s goal p ∧ p.length = n + 1 := by
  intro n
  induction n with
  | zero =>
    intro s _ hn
    have hse : s = goal := manhattan_eq_zero (by simpa using hn)
    subst hse
    exact ⟨[s], ⟨rfl, rfl, List.chain'_singleton _, by simp⟩, rfl⟩
  | succ n ih =>
    intro s hs hn
    obtain ⟨t, hadj, ht, hnt⟩ := exists_closer hs hg (by push_cast at hn; exact hn)
    obtain ⟨p, ⟨h1, h2, h3, h4⟩, hlen⟩ := ih t ht hnt
    refine ⟨s :: p, ⟨rfl, ?_, ?_, ?_⟩, by simp [hlen]⟩
    · rw [List.getLast?_cons, h2]
      rfl
    · rw [List.chain'_cons']
      refine ⟨?_, h3⟩
      intro y hy
      rw [h1] at hy
      simp only [Option.mem_def, Option.some.injEq] at hy
      subst hy
      exact hadj
    · intro x hx
      simp only [List.tail_cons] at hx
      cases p with
      | nil => exact absurd hx (List.not_mem_nil _)
      | cons a l =>
        simp only [List.head?_cons, Option.some.injEq] at h1
        subst h1
        rcases List.mem_cons.1 hx with h | h
        · rw [h]
          exact free_of_all_zero hrect hzero ht
        · exact h4 x (by simpa using h)

theorem validPath_length_ge {grid : Grid} {start goal : GridPos} {p : List GridPos}
    (h : ValidPath grid start goal p) : manhattan start goal + 1 ≤ p.length := by
  obtain ⟨l, hl⟩ := validPath_cons h
  subst hl
  obtain ⟨_, hlast, hch, _⟩ := h
  have := manhattan_le_chain goal l start hch hlast
  simp only [List.length_cons, Nat.cast_add, Nat.cast_one]
  omega

/-! ## `aStarPath`: the claims -/

/-- Claim C3. On a rectangular grid whose sizes fit in `int`, for every start and goal
(in bounds or not, blocked or not), every choice among equal-priority entries and enough
fuel, `aStarPath` returns, and a non-empty result has `start` as its first and `goal` as
its last element, consecutive elements are one step apart in one of the four axis
directions, and every element after the first is an in-bounds cell whose value is `0`. -/
theorem aStarPath_returns_valid_path (grid : Grid) (start goal : GridPos) (fuel : Nat)
    (tie : Nat → Nat) (hrect : Rect grid) (hfit : Fits32 grid) (hstart : PosInt32 start)
    (hfuel : aStarFuel grid ≤ fuel) :
    ∃ path, aStarPath fuel tie grid start goal = some path ∧
      (path ≠ [] →
        path.head? = some start ∧ path.getLast? = some goal ∧ List.Chain' Adj path ∧
        ∀ p ∈ path.tail, InBounds grid p ∧ cellAt grid p.x p.y = some 0) := by
  obtain ⟨path, hpath⟩ := aStarPath_total hrect hfit hstart goal tie hfuel
  refine ⟨path, hpath, fun hne => ?_⟩
  have hres := hpath
  by_cases hempty : grid = [] ∨ width grid = 0
  · rw [aStarPath_of_empty hempty] at hres
    simp only [Option.some.injEq] at hres
    exact absurd hres.symm hne
  · rw [aStarPath_eq hfit hempty] at hres
    exact aStarLoop_valid hrect hfit hstart goal fuel fuel tie _ path
      ⟨AStarInv.initial grid start goal, termInv_init _ _ _ _⟩ hres hne

theorem aStarPath_returns_valid_path_witness :
    aStarPath 32 (fun _ => 0) [[0, 0, 1]] ⟨-1, 0⟩ ⟨1, 0⟩ = some [⟨-1, 0⟩, ⟨0, 0⟩, ⟨1, 0⟩] ∧
    ∃ path, aStarPath 32 (fun _ => 0) [[0, 0, 1]] ⟨-1, 0⟩ ⟨1, 0⟩ = some path ∧
      (path ≠ [] →
        path.head? = some ⟨-1, 0⟩ ∧ path.getLast? = some ⟨1, 0⟩ ∧ List.Chain' Adj path ∧
        ∀ p ∈ path.tail, InBounds [[0, 0, 1]] p ∧ cellAt [[0, 0, 1]] p.x p.y = some 0) :=
  ⟨by decide, aStarPath_returns_valid_path [[0, 0, 1]] ⟨-1, 0⟩ ⟨1, 0⟩ 32 (fun _ => 0)
    (by decide) (by decide) (by decide) (by decide)⟩

/-- Claim C4. On a rectangular grid whose sizes fit in `int`, for an in-bounds start and
goal, every choice among equal-priority entries and enough fuel, `aStarPath` returns, and
a non-empty result has no more cells than any valid path from `start` to `goal`
(4-directional steps, every cell after the start in bounds with value `0`); scores are
exact integers. -/
theorem aStarPath_returns_shortest_path (grid : Grid) (start goal : GridPos) (fuel : Nat)
    (tie : Nat → Nat) (hrect : Rect grid) (hfit : Fits32 grid)
    (hs : InBounds grid start) (hg : InBounds grid goal) (hfuel : aStarFuel grid ≤ fuel) :
    ∃ path, aStarPath fuel tie grid start goal = some path ∧
      (path ≠ [] → ∀ other, ValidPath grid start goal other → path.length ≤ other.length) := by
  have hstart : PosInt32 start := posInt32_of_inBounds hfit.1 hs
  obtain ⟨path, hpath⟩ := aStarPath_total hrect hfit hstart goal tie hfuel
  refine ⟨path, hpath, ?_⟩
  have hres := hpath
  rw [aStarPath_eq hfit (not_empty_of_inBounds hs)] at hres
  exact (aStarLoop_optimal hrect hfit hs hg fuel fuel tie _ path
    ⟨AStarInv.initial grid start goal, termInv_init _ _ _ _,
      AStarOpt.initialOpt hrect hfit hs hg⟩ hres).2

theorem aStarPath_returns_shortest_path_witness :
    aStarPath 338 (fun _ => 0) [[0, 0, 0], [0, 1, 0], [0, 0, 0], [0, 0, 0]] ⟨0, 1⟩ ⟨2, 1⟩
      = some [⟨0, 1⟩, ⟨0, 2⟩, ⟨1, 2⟩, ⟨2, 2⟩, ⟨2, 1⟩] ∧
    ValidPath [[0, 0, 0], [0, 1, 0], [0, 0, 0], [0, 0, 0]] ⟨0, 1⟩ ⟨2, 1⟩
      [⟨0, 1⟩, ⟨0, 2⟩, ⟨0, 3⟩, ⟨1, 3⟩, ⟨2, 3⟩, ⟨2, 2⟩, ⟨2, 1⟩] ∧
    ∃ path, aStarPath 338 (fun _ => 0) [[0, 0, 0], [0, 1, 0], [0, 0, 0], [0, 0, 0]]
        ⟨0, 1⟩ ⟨2, 1⟩ = some path ∧
      (path ≠ [] → ∀ other,
        ValidPath [[0, 0, 0], [0, 1, 0], [0, 0, 0], [0, 0, 0]] ⟨0, 1⟩ ⟨2, 1⟩ other →
        path.length ≤ other.length) :=
  ⟨by decide, ⟨rfl, rfl, by simp [Adj], by decide⟩,
    aStarPath_returns_shortest_path [[0, 0, 0], [0, 1, 0], [0, 0, 0], [0, 0, 0]] ⟨0, 1⟩ ⟨2, 1⟩
      338 (fun _ => 0) (by decide) (by decide) (by decide) (by decide) (by decide)⟩

/-- Claim C5. On a rectangular grid whose sizes fit in `int`: when the grid is empty (no
rows, or rows of width 0) `aStarPath` returns the empty sequence; for an in-bounds start
and goal, every choice among equal-priority entries and enough fuel, `aStarPath` returns,
and its result is empty exactly when no valid path leads from `start` to `goal`
(4-directional steps through in-bounds cells of value `0`, the value of the start cell
being ignored). -/
theorem aStarPath_empty_iff_unreachable (grid : Grid) (start goal : GridPos) (fuel : Nat)
    (tie : Nat → Nat) (hrect : Rect grid) (hfit : Fits32 grid) :
    ((grid = [] ∨ width grid = 0) → aStarPath fuel tie grid start goal = some []) ∧
    (InBounds grid start → InBounds grid goal → aStarFuel grid ≤ fuel →
      ∃ path, aStarPath fuel tie grid start goal = some path ∧
        (path = [] ↔ ¬ ∃ p, ValidPath grid start goal p)) := by
  refine ⟨fun h => aStarPath_of_empty h fuel tie start goal, ?_⟩
  intro hs hg hfuel
  have hstart : PosInt32 start := posInt32_of_inBounds hfit.1 hs
  obtain ⟨path, hpath⟩ := aStarPath_total hrect hfit hstart goal tie hfuel
  refine ⟨path, hpath, ?_⟩
  have hres := hpath
  rw [aStarPath_eq hfit (not_empty_of_inBounds hs)] at hres
  constructor
  · exact (aStarLoop_optimal hrect hfit hs hg fuel fuel tie _ path
      ⟨AStarInv.initial grid start goal, termInv_init _ _ _ _, AStarOpt.initialOpt hrect hfit hs hg⟩
      hres).1
  · intro hno
    by_contra hne
    exact hno ⟨path, aStarLoop_valid hrect hfit hstart goal fuel fuel tie _ path
      ⟨AStarInv.initial grid start goal, termInv_init _ _ _ _⟩ hres hne⟩

theorem aStarPath_empty_iff_unreachable_witness :
    ∃ path, aStarPath 32 (fun _ => 0) [[0, 1, 0]] ⟨0, 0⟩ ⟨2, 0⟩ = some path ∧
      (path = [] ↔ ¬ ∃ p, ValidPath [[0, 1, 0]] ⟨0, 0⟩ ⟨2, 0⟩ p) :=
  (aStarPath_empty_iff_unreachable [[0, 1, 0]] ⟨0, 0⟩ ⟨2, 0⟩ 32 (fun _ => 0) (by decide)
    (by decide)).2 (by decide) (by decide) (by decide)

/-- With scores counted as exact integers: on a rectangular grid whose sizes fit in `int`
and whose cells are all `0`, for an in-bounds start and goal, every choice among
equal-priority entries and enough fuel, `aStarPath` returns a path with exactly
`|start.x - goal.x| + |start.y - goal.y| + 1` elements. This is a statement about the
search with exact scores; the binary32 scores of the source agree with it only while
every score stays at or below `2^24`. -/
theorem aStarPath_no_obstacles_length (grid : Grid) (start goal : GridPos) (fuel : Nat)
    (tie : Nat → Nat) (hrect : Rect grid) (hfit : Fits32 grid)
    (hzero : ∀ row ∈ grid, ∀ c ∈ row, c = 0)
    (hs : InBounds grid start) (hg : InBounds grid goal) (hfuel : aStarFuel grid ≤ fuel) :
    ∃ path, aStarPath fuel tie grid start goal = some path ∧
      (path.length : Int) = |start.x - goal.x| + |start.y - goal.y| + 1 := by
  have hstart : PosInt32 start := posInt32_of_inBounds hfit.1 hs
  obtain ⟨path, hpath⟩ := aStarPath_total hrect hfit hstart goal tie hfuel
  refine ⟨path, hpath, ?_⟩
  have hres := hpath
  rw [aStarPath_eq hfit (not_empty_of_inBounds hs)] at hres
  have hopt := aStarLoop_optimal hrect hfit hs hg fuel fuel tie _ path
    ⟨AStarInv.initial grid start goal, termInv_init _ _ _ _, AStarOpt.initialOpt hrect hfit hs hg⟩ hres
  have hnn := manhattan_nonneg start goal
  obtain ⟨p, hp, hlen⟩ := exists_manhattan_path hrect hzero hg (manhattan start goal).toNat
    start hs (by omega)
  have hne : path ≠ [] := fun h => hopt.1 h ⟨p, hp⟩
  have hle := hopt.2 hne p hp
  have hvalid := aStarLoop_valid hrect hfit hstart goal fuel fuel tie _ path
    ⟨AStarInv.initial grid start goal, termInv_init _ _ _ _⟩ hres hne
  have hge := validPath_length_ge hvalid
  have hm : manhattan start goal = |start.x - goal.x| + |start.y - goal.y| := rfl
  rw [← hm]
  omega

theorem aStarPath_no_obstacles_length_witness :
    ∃ path, aStarPath 200 (fun n => n) [[0, 0, 0], [0, 0, 0], [0, 0, 0]] ⟨0, 2⟩ ⟨2, 0⟩
        = some path ∧
      (path.length : Int) = |(0 : Int) - 2| + |(2 : Int) - 0| + 1 :=
  aStarPath_no_obstacles_length [[0, 0, 0], [0, 0, 0], [0, 0, 0]] ⟨0, 2⟩ ⟨2, 0⟩ 200
    (fun n => n) (by decide) (by decide) (by decide) (by decide) (by decide) (by decide)

/-! ## `aStarPath`: start equal to goal, and positions outside the grid -/

theorem popTop_singleton (c : Nat) (n : Node) : popTop c [n] = some (n, []) := by
  have hf : [n].filter (isTop [n]) = [n] := by
    simp [isTop]
  unfold popTop
  rw [hf]
  have hc : c % [n].length = 0 := by simp [Nat.mod_one]
  rw [hc]
  simp

/-- Claim C11. On a grid that has a row and whose first row is not empty, for every
position `p` (in bounds or not, whatever the value of its cell), every fuel and every
choice among equal-priority entries, `aStarPath` from `p` to `p` returns `[p]`. -/
theorem aStarPath_start_eq_goal (grid : Grid) (p : GridPos) (fuel : Nat) (tie : Nat → Nat)
    (hne : ¬ (grid = [] ∨ width grid = 0)) :
    aStarPath fuel tie grid p p = some [p] := by
  unfold aStarPath
  rw [if_neg hne]
  cases fuel with
  | zero => simp [aStarLoop, popTop_singleton, walkBack]
  | succ n => simp [aStarLoop, popTop_singleton, walkBack]

theorem aStarPath_start_eq_goal_witness :
    aStarPath 0 (fun _ => 0) [[1, 0], [0, 0]] ⟨7, -3⟩ ⟨7, -3⟩ = some [⟨7, -3⟩] :=
  aStarPath_start_eq_goal [[1, 0], [0, 0]] ⟨7, -3⟩ 0 (fun _ => 0) (by decide)

/-- Counterexample to claim C12. On the rectangular grid `[[0, 0]]` the start `(-1, 0)` lies
outside the bounds, and `aStarPath` to the in-bounds goal `(1, 0)` returns a path of three
positions; with start and goal both at `(-1, 0)` it returns a path of one position. -/
theorem aStarPath_out_of_bounds_start_counterexample :
    Rect [[0, 0]] ∧ ¬ ([[0, 0]] = [] ∨ width [[0, 0]] = 0) ∧ ¬ InBounds [[0, 0]] ⟨-1, 0⟩ ∧
    aStarPath 18 (fun _ => 0) [[0, 0]] ⟨-1, 0⟩ ⟨1, 0⟩ = some [⟨-1, 0⟩, ⟨0, 0⟩, ⟨1, 0⟩] ∧
    aStarPath 18 (fun _ => 0) [[0, 0]] ⟨-1, 0⟩ ⟨1, 0⟩ ≠ some [] ∧
    aStarPath 18 (fun _ => 0) [[0, 0]] ⟨-1, 0⟩ ⟨-1, 0⟩ = some [⟨-1, 0⟩] := by
  refine ⟨by decide, by decide, by decide, by decide, by decide, by decide⟩

/-- Claim C12, amended. On a rectangular grid whose sizes fit in `int`, for a start
different from the goal, every choice among equal-priority entries and enough fuel,
`aStarPath` returns the empty sequence when the goal lies outside the grid bounds, and
also when the start lies outside the grid bounds and none of its four neighbours is an
in-bounds cell of value `0`. -/
theorem aStarPath_out_of_bounds_empty (grid : Grid) (start goal : GridPos) (fuel : Nat)
    (tie : Nat → Nat) (hrect : Rect grid) (hfit : Fits32 grid) (hstart : PosInt32 start)
    (hfuel : aStarFuel grid ≤ fuel) (hsg : start ≠ goal)
    (hout : ¬ InBounds grid goal ∨
      (¬ InBounds grid start ∧ ∀ w, Adj start w → ¬ Free grid w)) :
    aStarPath fuel tie grid start goal = some [] := by
  obtain ⟨path, hpath⟩ := aStarPath_total hrect hfit hstart goal tie hfuel
  rw [hpath]
  by_cases hempty : grid = [] ∨ width grid = 0
  · rw [aStarPath_of_empty hempty] at hpath
    rw [← hpath]
  · have hres := hpath
    rw [aStarPath_eq hfit hempty] at hres
    by_contra hne
    have hne2 : path ≠ [] := fun h => hne (by rw [h])
    have hvalid := aStarLoop_valid hrect hfit hstart goal fuel fuel tie _ path
      ⟨AStarInv.initial grid start goal, termInv_init _ _ _ _⟩ hres hne2
    obtain ⟨l, hl⟩ := validPath_cons hvalid
    subst hl
    obtain ⟨_, hlast, hch, hfree⟩ := hvalid
    cases l with
    | nil =>
      simp only [List.getLast?_singleton, Option.some.injEq] at hlast
      exact hsg hlast
    | cons w l2 =>
      rcases hout with hg | ⟨_, hnb⟩
      · have hmem : goal ∈ (w :: l2) := by
          rw [List.getLast?_cons_cons] at hlast
          exact List.mem_of_getLast?_eq_some hlast
        exact hg (hfree goal (by simpa using hmem)).1
      · rw [List.chain'_cons] at hch
        exact hnb w hch.1 (hfree w (by simp))

theorem aStarPath_out_of_bounds_empty_witness :
    aStarPath 18 (fun _ => 0) [[0, 0]] ⟨0, 0⟩ ⟨2, 0⟩ = some [] ∧
    aStarPath 18 (fun _ => 0) [[1, 0]] ⟨-1, 0⟩ ⟨1, 0⟩ = some [] :=
  ⟨aStarPath_out_of_bounds_empty [[0, 0]] ⟨0, 0⟩ ⟨2, 0⟩ 18 (fun _ => 0) (by decide) (by decide)
      (by decide) (by decide) (by decide) (Or.inl (by decide)),
    aStarPath_out_of_bounds_empty [[1, 0]] ⟨-1, 0⟩ ⟨1, 0⟩ 18 (fun _ => 0) (by decide)
      (by decide) (by decide) (by decide) (by decide)
      (Or.inr ⟨by decide, by
        intro w hadj hfree
        obtain ⟨⟨hx0, hx1, hy0, hy1⟩, hc⟩ := hfree
        simp only [width, List.headD_cons, List.length_cons, List.length_nil,
          List.length_singleton] at hx1 hy1
        have hwx : w.x = 0 := by
          unfold Adj at hadj
          simp only at hadj
          omega
        have hwy : w.y = 0 := by omega
        rw [hwx, hwy] at hc
        exact absurd hc (by decide)⟩)⟩

/-! ## Collision detection -/

theorem clamp_mem (v : Rat) {lo hi : Rat} (h : lo ≤ hi) : lo ≤ clamp v lo hi ∧ clamp v lo hi ≤ hi := by
  unfold clamp
  split
  · exact ⟨le_refl _, h⟩
  · split
    · exact ⟨h, le_refl _⟩
    · constructor <;> linarith

theorem clamp_of_mem {v lo hi : Rat} (h1 : lo ≤ v) (h2 : v ≤ hi) : clamp v lo hi = v := by
  unfold clamp
  rw [if_neg (not_lt.2 h1), if_neg (not_lt.2 h2)]

theorem clamp_closest (v : Rat) {lo hi q : Rat} (h1 : lo ≤ q) (h2 : q ≤ hi) :
    (v - clamp v lo hi) * (v - clamp v lo hi) ≤ (v - q) * (v - q) := by
  unfold clamp
  split
  · nlinarith
  · split
    · nlinarith
    · have := mul_self_nonneg (v - q)
      simp only [sub_self, mul_zero]
      exact this

theorem sq_sum_le_zero_iff (a b : Rat) : a * a + b * b ≤ 0 ↔ a = 0 ∧ b = 0 := by
  constructor
  · intro h
    have ha := mul_self_nonneg a
    have hb := mul_self_nonneg b
    have ha0 : a * a = 0 := by linarith
    have hb0 : b * b = 0 := by linarith
    exact ⟨mul_self_eq_zero.1 ha0, mul_self_eq_zero.1 hb0⟩
  · rintro ⟨rfl, rfl⟩
    simp

/-- Claim C14. The function `aabbOverlap` gives the same result when its two boxes are
exchanged, and `circleOverlap` gives the same result when its two circles are exchanged
(components and radii read as exact rationals). -/
theorem overlap_symmetric (a b : AABB) (cA cB : Vec2) (rA rB : Rat) :
    aabbOverlap a b = aabbOverlap b a ∧
    circleOverlap cA rA cB rB = circleOverlap cB rB cA rA := by
  constructor
  · unfold aabbOverlap
    rw [decide_eq_decide]
    constructor <;> rintro ⟨h1, h2, h3, h4⟩ <;> exact ⟨h2, h1, h4, h3⟩
  · unfold circleOverlap
    simp only [Vec2.sub, Vec2.lengthSquared]
    rw [decide_eq_decide]
    have h1 : (cA.x - cB.x) * (cA.x - cB.x) + (cA.y - cB.y) * (cA.y - cB.y)
        = (cB.x - cA.x) * (cB.x - cA.x) + (cB.y - cA.y) * (cB.y - cA.y) := by ring
    have h2 : (rA + rB) * (rA + rB) = (rB + rA) * (rB + rA) := by ring
    rw [h1, h2]

/-- Claim C15. For well-formed boxes `a` and `b`, `aabbOverlap a b` is true exactly when
some point lies in both boxes according to `pointInAABB`; boxes that touch along an edge
or at a corner overlap, and boxes separated by a positive gap on an axis do not. -/
theorem aabbOverlap_iff_common_point (a b : AABB) (ha : WellFormed a) (hb : WellFormed b) :
    (aabbOverlap a b = true ↔ ∃ p, pointInAABB p a = true ∧ pointInAABB p b = true) ∧
    (a.max.x = b.min.x → a.min.y ≤ b.max.y → b.min.y ≤ a.max.y → aabbOverlap a b = true) ∧
    (a.max.y = b.min.y → a.min.x ≤ b.max.x → b.min.x ≤ a.max.x → aabbOverlap a b = true) ∧
    (a.max.x < b.min.x ∨ b.max.x < a.min.x ∨ a.max.y < b.min.y ∨ b.max.y < a.min.y →
      aabbOverlap a b = false) := by
  obtain ⟨hax, hay⟩ := ha
  obtain ⟨hbx, hby⟩ := hb
  refine ⟨?_, ?_, ?_, ?_⟩
  · simp only [aabbOverlap, pointInAABB, decide_eq_true_eq, ge_iff_le]
    constructor
    · rintro ⟨h1, h2, h3, h4⟩
      refine ⟨⟨max a.min.x b.min.x, max a.min.y b.min.y⟩, ⟨?_, ?_, ?_, ?_⟩, ⟨?_, ?_, ?_, ?_⟩⟩
      · exact le_max_left _ _
      · exact max_le hax h2
      · exact le_max_left _ _
      · exact max_le hay h4
      · exact le_max_right _ _
      · exact max_le h1 hbx
      · exact le_max_right _ _
      · exact max_le h3 hby
    · rintro ⟨p, ⟨h1, h2, h3, h4⟩, ⟨h5, h6, h7, h8⟩⟩
      exact ⟨le_trans h1 h6, le_trans h5 h2, le_trans h3 h8, le_trans h7 h4⟩
  · intro h1 h2 h3
    simp only [aabbOverlap, decide_eq_true_eq, ge_iff_le]
    exact ⟨by linarith, by linarith, h2, h3⟩
  · intro h1 h2 h3
    simp only [aabbOverlap, decide_eq_true_eq, ge_iff_le]
    exact ⟨h2, h3, by linarith, by linarith⟩
  · intro h
    simp only [aabbOverlap, decide_eq_false_iff_not, ge_iff_le]
    rintro ⟨h1, h2, h3, h4⟩
    rcases h with h | h | h | h <;> linarith

theorem aabbOverlap_iff_common_point_witness :
    (aabbOverlap ⟨⟨0, 0⟩, ⟨1, 1⟩⟩ ⟨⟨1, 1⟩, ⟨2, 3⟩⟩ = true ↔
      ∃ p, pointInAABB p ⟨⟨0, 0⟩, ⟨1, 1⟩⟩ = true ∧ pointInAABB p ⟨⟨1, 1⟩, ⟨2, 3⟩⟩ = true) ∧
    aabbOverlap ⟨⟨0, 0⟩, ⟨1, 1⟩⟩ ⟨⟨1, 1⟩, ⟨2, 3⟩⟩ = true :=
  ⟨(aabbOverlap_iff_common_point ⟨⟨0, 0⟩, ⟨1, 1⟩⟩ ⟨⟨1, 1⟩, ⟨2, 3⟩⟩
      (by decide) (by decide)).1,
    (aabbOverlap_iff_common_point ⟨⟨0, 0⟩, ⟨1, 1⟩⟩ ⟨⟨1, 1⟩, ⟨2, 3⟩⟩
      (by decide) (by decide)).2.1 rfl (by norm_num) (by norm_num)⟩

/-- Claim C16. For a well-formed box, with exact arithmetic, `circleAABBOverlap` is true
exactly when some point of the box (according to `pointInAABB`) has a squared distance
to the center of at most the squared radius. -/
theorem circleAABBOverlap_iff_point_within (center : Vec2) (radius : Rat) (box : AABB)
    (hbox : WellFormed box) :
    circleAABBOverlap center radius box = true ↔
      ∃ p, pointInAABB p box = true ∧ (center.sub p).lengthSquared ≤ radius * radius := by
  obtain ⟨hx, hy⟩ := hbox
  simp only [circleAABBOverlap, pointInAABB, Vec2.sub, Vec2.lengthSquared, decide_eq_true_eq,
    ge_iff_le]
  constructor
  · intro h
    exact ⟨⟨clamp center.x box.min.x box.max.x, clamp center.y box.min.y box.max.y⟩,
      ⟨(clamp_mem _ hx).1, (clamp_mem _ hx).2, (clamp_mem _ hy).1, (clamp_mem _ hy).2⟩, h⟩
  · rintro ⟨p, ⟨h1, h2, h3, h4⟩, h5⟩
    have hcx := clamp_closest center.x h1 h2
    have hcy := clamp_closest center.y h3 h4
    linarith

theorem circleAABBOverlap_iff_point_within_witness :
    circleAABBOverlap ⟨3, 0⟩ 2 ⟨⟨0, 0⟩, ⟨1, 1⟩⟩ = true ∧
    (circleAABBOverlap ⟨3, 0⟩ 2 ⟨⟨0, 0⟩, ⟨1, 1⟩⟩ = true ↔
      ∃ p, pointInAABB p ⟨⟨0, 0⟩, ⟨1, 1⟩⟩ = true ∧
        ((⟨3, 0⟩ : Vec2).sub p).lengthSquared ≤ 2 * 2) :=
  ⟨by norm_num [circleAABBOverlap, clamp, Vec2.sub, Vec2.lengthSquared],
    circleAABBOverlap_iff_point_within ⟨3, 0⟩ 2 ⟨⟨0, 0⟩, ⟨1, 1⟩⟩ (by decide)⟩

/-- Claim C17. For a well-formed box, with exact arithmetic, `pointInAABB` is true for
the corner `min`, for the corner `max` and for `center()`. -/
theorem pointInAABB_corners_and_center (box : AABB) (hbox : WellFormed box) :
    pointInAABB box.min box = true ∧ pointInAABB box.max box = true ∧
    pointInAABB box.center box = true := by
  obtain ⟨hx, hy⟩ := hbox
  refine ⟨?_, ?_, ?_⟩
  · simp only [pointInAABB, decide_eq_true_eq, ge_iff_le]
    exact ⟨le_refl _, hx, le_refl _, hy⟩
  · simp only [pointInAABB, decide_eq_true_eq, ge_iff_le]
    exact ⟨hx, le_refl _, hy, le_refl _⟩
  · simp only [pointInAABB, AABB.center, decide_eq_true_eq, ge_iff_le]
    have h5 : (0.5 : Rat) = 1 / 2 := by norm_num
    rw [h5]
    refine ⟨?_, ?_, ?_, ?_⟩ <;> linarith

theorem pointInAABB_corners_and_center_witness :
    pointInAABB (⟨⟨-1, 0⟩, ⟨2, 5⟩⟩ : AABB).min ⟨⟨-1, 0⟩, ⟨2, 5⟩⟩ = true ∧
    pointInAABB (⟨⟨-1, 0⟩, ⟨2, 5⟩⟩ : AABB).max ⟨⟨-1, 0⟩, ⟨2, 5⟩⟩ = true ∧
    pointInAABB (⟨⟨-1, 0⟩, ⟨2, 5⟩⟩ : AABB).center ⟨⟨-1, 0⟩, ⟨2, 5⟩⟩ = true :=
  pointInAABB_corners_and_center ⟨⟨-1, 0⟩, ⟨2, 5⟩⟩ (by decide)

/-- Claim C18. For a well-formed box, with exact arithmetic, `circleAABBOverlap` with
radius `0` equals `pointInAABB` of the center. -/
theorem circleAABBOverlap_zero_radius (c : Vec2) (box : AABB) (hbox : WellFormed box) :
    circleAABBOverlap c 0 box = pointInAABB c box := by
  obtain ⟨hx, hy⟩ := hbox
  unfold circleAABBOverlap pointInAABB
  simp only [Vec2.sub, Vec2.lengthSquared]
  rw [decide_eq_decide, mul_zero, sq_sum_le_zero_iff]
  constructor
  · rintro ⟨h1, h2⟩
    have h3 := clamp_mem c.x hx
    have h4 := clamp_mem c.y hy
    have h5 : clamp c.x box.min.x box.max.x = c.x := by linarith
    have h6 : clamp c.y box.min.y box.max.y = c.y := by linarith
    rw [h5] at h3
    rw [h6] at h4
    exact ⟨h3.1, h3.2, h4.1, h4.2⟩
  · rintro ⟨h1, h2, h3, h4⟩
    rw [clamp_of_mem h1 h2, clamp_of_mem h3 h4]
    simp

theorem circleAABBOverlap_zero_radius_witness :
    circleAABBOverlap ⟨1, 1⟩ 0 ⟨⟨0, 0⟩, ⟨1, 1⟩⟩ = pointInAABB ⟨1, 1⟩ ⟨⟨0, 0⟩, ⟨1, 1⟩⟩ :=
  circleAABBOverlap_zero_radius ⟨1, 1⟩ ⟨⟨0, 0⟩, ⟨1, 1⟩⟩ (by decide)

/-! ## Further claims on `clearCompletedRows`, `floodFill` and `aStarPath` -/

/-- Claim C13. On every grid in which no row is complete (every row contains a `0`),
`clearCompletedRows` returns 0 and leaves the grid unchanged. -/
theorem clearCompletedRows_no_complete_row (grid : Grid)
    (h : ∀ row ∈ grid, ¬ ∀ c ∈ row, c ≠ 0) :
    clearCompletedRows grid = some (0, grid) := by
  apply clearCompletedRows_of_no_full
  intro row hrow
  have hr := h row hrow
  push_neg at hr
  obtain ⟨c, hc, hc0⟩ := hr
  rw [← hc0]
  exact hc

theorem clearCompletedRows_no_complete_row_witness :
    clearCompletedRows [[0, 1], [2, 0], [0, 0], [3, 0, 4]]
      = some (0, [[0, 1], [2, 0], [0, 0], [3, 0, 4]]) :=
  clearCompletedRows_no_complete_row [[0, 1], [2, 0], [0, 0], [3, 0, 4]] (by decide)

/-- Claim C19. On a rectangular grid whose sizes fit in `int`, for every start and every
new value, the work-queue loop of `floodFill` terminates: with fuel for `5 * cells + 2`
iterations the call returns a count and a grid. -/
theorem floodFill_terminates (grid : Grid) (startX startY newValue : Int) (fuel : Nat)
    (hrect : Rect grid) (hfit : Fits32 grid) (hfuel : 5 * cellCount grid + 2 ≤ fuel) :
    ∃ count grid', floodFill fuel grid startX startY newValue = some (count, grid') := by
  have hrows : toInt32 (grid.length : Int) = grid.length :=
    toInt32_of_lt _ (by omega) (by have := hfit.1.1; omega)
  have hcols : toInt32 (width grid : Int) = width grid :=
    toInt32_of_lt _ (by omega) (by have := hfit.1.2; omega)
  by_cases hne : grid = [] ∨ width grid = 0
  · exact ⟨0, grid, by unfold floodFill; rw [if_pos hne]⟩
  by_cases hout : startX < 0 ∨ startX ≥ (width grid : Int) ∨ startY < 0 ∨
      startY ≥ (grid.length : Int)
  · refine ⟨0, grid, ?_⟩
    unfold floodFill
    rw [if_neg hne]
    simp only [hrows, hcols]
    rw [if_pos hout]
  have hin : InBounds grid ⟨startX, startY⟩ := by
    unfold InBounds
    simp only
    omega
  obtain ⟨v, hv⟩ := cellAt_isSome_of_inBounds hrect hin
  simp only at hv
  by_cases hnv : newValue = v
  · refine ⟨0, grid, ?_⟩
    unfold floodFill
    rw [if_neg hne]
    simp only [hrows, hcols]
    rw [if_neg hout]
    simp [hv, hnv]
  · obtain ⟨g2, hg2, _⟩ := floodFill_of_fill hrect hfit hin hv hnv hfuel
    exact ⟨_, g2, hg2⟩

theorem floodFill_terminates_witness :
    ∃ count grid', floodFill 32 [[0, 1, 0], [0, 0, 1]] 0 0 7 = some (count, grid') :=
  floodFill_terminates [[0, 1, 0], [0, 0, 1]] 0 0 7 32 (by decide) (by decide) (by decide)

/-- Claim C20. On a rectangular grid whose sizes fit in `int`, for every start and goal
(blocked or out of bounds included) and every choice among equal-priority entries, the
frontier loop and the predecessor walk of `aStarPath` terminate: with fuel for
`2 * cells * (cells + 2) + 2` iterations the call returns a sequence. -/
theorem aStarPath_terminates (grid : Grid) (start goal : GridPos) (fuel : Nat)
    (tie : Nat → Nat) (hrect : Rect grid) (hfit : Fits32 grid) (hstart : PosInt32 start)
    (hfuel : 2 * (cellCount grid * (cellCount grid + 2)) + 2 ≤ fuel) :
    ∃ path, aStarPath fuel tie grid start goal = some path :=
  aStarPath_total hrect hfit hstart goal tie hfuel

theorem aStarPath_terminates_witness :
    ∃ path, aStarPath 98 (fun n => n) [[0, 1, 0], [0, 0, 0]] ⟨1, 0⟩ ⟨5, 5⟩ = some path :=
  aStarPath_terminates [[0, 1, 0], [0, 0, 0]] ⟨1, 0⟩ ⟨5, 5⟩ 98 (fun n => n) (by decide)
    (by decide) (by decide) (by decide)

end cppcore
